import Mathlib

/-!
Verification of the fires2rest Firestore REST client core against its
natural-language specification.

The TypeScript sources are shallowly embedded:
* JavaScript values are modelled by the inductive `JSValue`; JavaScript
  numbers are idealized as exact rationals (`Rat`), with integral numbers
  exactly those with denominator 1 (this mirrors `Number.isInteger` on the
  domain where the 64-bit float artifacts such as `NaN` and exponent
  rendering of huge magnitudes do not arise).
* The wire representation (`FirestoreValue`) is the tagged union of
  `types.ts`, with `integerValue` carrying its decimal string,
  `timestampValue` its ISO-8601 string and `bytesValue` its base64 string,
  exactly as on the wire.
* Platform builtins used by the source (`String(n)`, `parseInt`, `btoa`,
  `atob`, `Date.prototype.toISOString`, `new Date(string)`) are modelled
  by executable Lean functions implementing the corresponding ECMA-262 /
  RFC 4648 algorithms, restricted to the four-digit-year ISO window the
  codec exchanges.
* Record objects are modelled as entry lists in property insertion order,
  mirroring `Object.entries` / `Object.keys`.
-/

set_option maxHeartbeats 4000000

-- ===========================================================================
-- Characters and small string helpers
-- ===========================================================================

/-- The backslash character, written by code point to keep sources readable. -/
def backslashChar : Char := Char.ofNat 92

/-- The backtick character, written by code point to keep sources readable. -/
def backtickChar : Char := Char.ofNat 96

/-- Decision of the character class `[a-zA-Z_]` from the simple field path
segment regular expression in `utils.ts`. -/
def isIdentStart (c : Char) : Bool :=
  (('a' ≤ c ∧ c ≤ 'z') ∨ ('A' ≤ c ∧ c ≤ 'Z') ∨ c = '_' : Bool)

/-- Decision of the character class `[a-zA-Z_0-9]` from the simple field path
segment regular expression in `utils.ts`. -/
def isIdentChar (c : Char) : Bool :=
  (isIdentStart c ∨ ('0' ≤ c ∧ c ≤ '9') : Bool)

/-- Embedding of the test of `SIMPLE_FIELD_PATH_REGEX`, the anchored regular
expression `^[a-zA-Z_][a-zA-Z_0-9]*$` of `utils.ts`, on a character list. -/
def isSimpleSegmentList : List Char → Bool
  | [] => false
  | c :: rest => isIdentStart c && rest.all isIdentChar

/-- Embedding of `SIMPLE_FIELD_PATH_REGEX.test` on strings. -/
def isSimpleSegment (s : String) : Bool :=
  isSimpleSegmentList s.toList

/-- Embedding of `segment.replace(/\\/g, "\\\\")`: every backslash becomes two
backslashes; a global regex replace over single characters is a flat map. -/
def replaceBackslashes (l : List Char) : List Char :=
  l.flatMap fun c =>
    if c = backslashChar then [backslashChar, backslashChar] else [c]

/-- Embedding of `segment.replace(/`/g, "\\`")` (the second replace in
`quoteFieldPathSegment`): every backtick becomes backslash-backtick. -/
def replaceBackticks (l : List Char) : List Char :=
  l.flatMap fun c =>
    if c = backtickChar then [backslashChar, backtickChar] else [c]

/-- Embedding of `quoteFieldPathSegment` from `utils.ts` on character lists:
return the segment unchanged when it matches the simple identifier regular
expression, otherwise escape backslashes, then backticks, and wrap the result
in backticks. -/
def quoteFieldPathSegmentList (l : List Char) : List Char :=
  if isSimpleSegmentList l then l
  else backtickChar :: replaceBackticks (replaceBackslashes l) ++ [backtickChar]

/-- Embedding of `quoteFieldPathSegment` from `utils.ts` on strings. -/
def quoteFieldPathSegment (s : String) : String :=
  String.mk (quoteFieldPathSegmentList s.toList)

/-- Splitting a character list at the dot character, mirroring
`path.split(".")` in JavaScript (adjacent dots yield empty segments). -/
def splitOnDots : List Char → List (List Char)
  | [] => [[]]
  | c :: rest =>
    let r := splitOnDots rest
    if c = '.' then [] :: r
    else (c :: r.headI) :: r.tail

/-- Embedding of `quoteFieldPath` from `utils.ts`: split on dots, quote each
segment, rejoin with dots. -/
def quoteFieldPathList (l : List Char) : List Char :=
  (List.intersperse ['.'] ((splitOnDots l).map quoteFieldPathSegmentList)).flatten

/-- Embedding of `quoteFieldPath` from `utils.ts` on strings. -/
def quoteFieldPath (s : String) : String :=
  String.mk (quoteFieldPathList s.toList)

/-- Specification-side single-pass escape: each backslash and each backtick is
escaped in one traversal, so a backslash introduced by escaping can never be
escaped a second time.  The claim asserts the sequential two-pass code equals
this. -/
def escapeBothAtOnce (l : List Char) : List Char :=
  l.flatMap fun c =>
    if c = backslashChar then [backslashChar, backslashChar]
    else if c = backtickChar then [backslashChar, backtickChar]
    else [c]

theorem replaceBackticks_replaceBackslashes (l : List Char) :
    replaceBackticks (replaceBackslashes l) = escapeBothAtOnce l := by
  induction l with
  | nil => rfl
  | cons c rest ih =>
    have h1 : replaceBackslashes (c :: rest)
        = (if c = backslashChar then [backslashChar, backslashChar] else [c])
          ++ replaceBackslashes rest := by
      simp [replaceBackslashes]
    have h2 : ∀ l1 l2 : List Char, replaceBackticks (l1 ++ l2)
        = replaceBackticks l1 ++ replaceBackticks l2 := by
      intro l1 l2
      simp [replaceBackticks]
    have h3 : escapeBothAtOnce (c :: rest)
        = (if c = backslashChar then [backslashChar, backslashChar]
           else if c = backtickChar then [backslashChar, backtickChar] else [c])
          ++ escapeBothAtOnce rest := by
      simp [escapeBothAtOnce]
    rw [h1, h2, ih, h3]
    by_cases hb : c = backslashChar
    · subst hb
      rw [if_pos rfl, if_pos rfl,
        show replaceBackticks [backslashChar, backslashChar]
          = [backslashChar, backslashChar] from by decide]
    · by_cases ht : c = backtickChar
      · subst ht
        rw [if_neg hb, if_neg hb, if_pos rfl,
          show replaceBackticks [backtickChar]
            = [backslashChar, backtickChar] from by decide]
      · rw [if_neg hb, if_neg hb, if_neg ht]
        show replaceBackticks [c] ++ _ = _
        simp [replaceBackticks, ht]

theorem length_replaceBackslashes (l : List Char) :
    l.length ≤ (replaceBackslashes l).length := by
  induction l with
  | nil => simp [replaceBackslashes]
  | cons c rest ih =>
    have h1 : replaceBackslashes (c :: rest)
        = (if c = backslashChar then [backslashChar, backslashChar] else [c])
          ++ replaceBackslashes rest := by
      simp [replaceBackslashes]
    rw [h1, List.length_append, List.length_cons]
    by_cases hb : c = backslashChar
    · rw [if_pos hb]
      simp only [List.length_cons, List.length_nil]
      omega
    · rw [if_neg hb]
      simp only [List.length_cons, List.length_nil]
      omega

theorem length_replaceBackticks (l : List Char) :
    l.length ≤ (replaceBackticks l).length := by
  induction l with
  | nil => simp [replaceBackticks]
  | cons c rest ih =>
    have h1 : replaceBackticks (c :: rest)
        = (if c = backtickChar then [backslashChar, backtickChar] else [c])
          ++ replaceBackticks rest := by
      simp [replaceBackticks]
    rw [h1, List.length_append, List.length_cons]
    by_cases hb : c = backtickChar
    · rw [if_pos hb]
      simp only [List.length_cons, List.length_nil]
      omega
    · rw [if_neg hb]
      simp only [List.length_cons, List.length_nil]
      omega

-- ===========================================================================
-- Data model: JavaScript values and wire values
-- ===========================================================================

/-- Model of the JavaScript values handled by the codec (`value.ts`) and of the
`FieldValue` sentinels (`field-value.ts`).  Numbers are idealized as exact
rationals; `date` is a JS `Date` by its integral epoch-millisecond value;
`tsval` is the `Timestamp` convenience class (seconds, nanoseconds); `bytes`
is a `Uint8Array` as its byte list; `map` is a plain object as its entry list
in property insertion order.  The five `fv*` constructors are the closed
sentinel variant (`ServerTimestamp | Delete | Increment | ArrayUnion |
ArrayRemove`). -/
inductive JSValue where
  | null
  | undef
  | bool (b : Bool)
  | num (q : Rat)
  | str (s : String)
  | date (ms : Int)
  | tsval (seconds nanoseconds : Rat)
  | geo (latitude longitude : Rat)
  | bytes (bs : List Nat)
  | arr (elems : List JSValue)
  | map (entries : List (String × JSValue))
  | fvServerTimestamp
  | fvDelete
  | fvIncrement (amount : Rat)
  | fvArrayUnion (elems : List JSValue)
  | fvArrayRemove (elems : List JSValue)

/-- Model of the wire value union of `types.ts`: a closed tagged union with
exactly one variant populated.  `integerValue` carries its decimal string,
`timestampValue` its ISO-8601 string, `bytesValue` its base64 string, exactly
as on the wire; `mapValue` fields are an entry list in insertion order. -/
inductive FirestoreValue where
  | nullValue
  | booleanValue (b : Bool)
  | integerValue (s : String)
  | doubleValue (q : Rat)
  | timestampValue (s : String)
  | stringValue (s : String)
  | bytesValue (s : String)
  | referenceValue (s : String)
  | geoPointValue (latitude longitude : Rat)
  | arrayValue (values : List FirestoreValue)
  | mapValue (fields : List (String × FirestoreValue))

/-- Embedding of `isFieldValue` from `field-value.ts`: recognizes the five
sentinel variants (objects carrying the `__isFieldValue__` marker). -/
def isFieldValue : JSValue → Bool
  | .fvServerTimestamp | .fvDelete | .fvIncrement _
  | .fvArrayUnion _ | .fvArrayRemove _ => true
  | _ => false

-- ===========================================================================
-- Platform model: decimal integer printing (`String(n)`) and `parseInt`
-- ===========================================================================

/-- Decimal digit character for a value below ten. -/
def digitChar (n : Nat) : Char := Char.ofNat (48 + n)

/-- Structural helper for `natToDigits`: the first argument is fuel, always
called with more fuel than the value, so the zero-fuel branch is
unreachable. -/
def natToDigitsGo : Nat → Nat → List Char
  | 0, _ => []
  | fuel + 1, n =>
    if n < 10 then [digitChar n]
    else natToDigitsGo fuel (n / 10) ++ [digitChar (n % 10)]

/-- Standard decimal digit list of a natural number (most significant digit
first), modelling the ECMA-262 ToString of an integral number in the range
where no exponent notation is produced. -/
def natToDigits (n : Nat) : List Char := natToDigitsGo (n + 1) n

/-- Model of the JavaScript `String(n)` rendering of an integral number. -/
def intToString (n : Int) : String :=
  if n < 0 then String.mk ('-' :: natToDigits n.natAbs)
  else String.mk (natToDigits n.natAbs)

/-- Numeric value of a decimal digit character, `none` when the character is
not a digit. -/
def digitVal (c : Char) : Option Nat :=
  if 48 ≤ c.toNat ∧ c.toNat ≤ 57 then some (c.toNat - 48) else none

/-- Value of a digit character list, most significant digit first. -/
def digitsVal (l : List Char) : Nat :=
  l.foldl (fun a c => a * 10 + (c.toNat - 48)) 0

theorem digitChar_toNat {n : Nat} (h : n < 10) : (digitChar n).toNat = 48 + n := by
  revert h
  revert n
  decide

theorem digitsVal_append_single (l : List Char) (c : Char) :
    digitsVal (l ++ [c]) = digitsVal l * 10 + (c.toNat - 48) := by
  simp [digitsVal, List.foldl_append]

theorem natToDigitsGo_spec :
    ∀ (fuel n : Nat), n < fuel →
      (∀ c ∈ natToDigitsGo fuel n, (digitVal c).isSome)
      ∧ digitsVal (natToDigitsGo fuel n) = n
      ∧ natToDigitsGo fuel n ≠ [] := by
  intro fuel
  induction fuel with
  | zero =>
    intro n h
    omega
  | succ fuel ih =>
    intro n h
    by_cases h10 : n < 10
    · simp only [natToDigitsGo, if_pos h10]
      refine ⟨?_, ?_, by simp⟩
      · intro c hc
        simp only [List.mem_singleton] at hc
        subst hc
        simp [digitVal, digitChar_toNat h10]
        omega
      · simp [digitsVal, digitChar_toNat h10]
    · have hrec := ih (n / 10) (by omega)
      simp only [natToDigitsGo, if_neg h10]
      refine ⟨?_, ?_, by simp⟩
      · intro c hc
        rw [List.mem_append] at hc
        rcases hc with hc | hc
        · exact hrec.1 c hc
        · simp only [List.mem_singleton] at hc
          subst hc
          have h2 : n % 10 < 10 := Nat.mod_lt _ (by omega)
          simp [digitVal, digitChar_toNat h2]
          omega
      · rw [digitsVal_append_single, hrec.2.1,
          digitChar_toNat (Nat.mod_lt _ (by omega))]
        omega

theorem natToDigits_all_digits (n : Nat) :
    ∀ c ∈ natToDigits n, (digitVal c).isSome :=
  (natToDigitsGo_spec (n + 1) n (by omega)).1

theorem digitsVal_natToDigits (n : Nat) : digitsVal (natToDigits n) = n :=
  (natToDigitsGo_spec (n + 1) n (by omega)).2.1

theorem natToDigits_ne_nil (n : Nat) : natToDigits n ≠ [] :=
  (natToDigitsGo_spec (n + 1) n (by omega)).2.2

/-- Model of the JavaScript `parseInt(s, 10)` on a character list: an
optional sign followed by the longest decimal digit prefix; `none` models
the `NaN` result when no digit is found.  (The whitespace trimming of full
`parseInt` never triggers on codec-produced strings and is not modelled.) -/
def jsParseIntList : List Char → Option Int
  | [] => none
  | c :: rest =>
    if c = '-' then
      let ds := rest.takeWhile fun x => (digitVal x).isSome
      if ds.isEmpty then none else some (-(digitsVal ds : Int))
    else if c = '+' then
      let ds := rest.takeWhile fun x => (digitVal x).isSome
      if ds.isEmpty then none else some ((digitsVal ds : Int))
    else
      let ds := (c :: rest).takeWhile fun x => (digitVal x).isSome
      if ds.isEmpty then none else some ((digitsVal ds : Int))

/-- Model of the JavaScript `parseInt(s, 10)` on strings. -/
def jsParseInt (s : String) : Option Int := jsParseIntList s.toList

theorem takeWhile_natToDigits (m : Nat) :
    (natToDigits m).takeWhile (fun c => (digitVal c).isSome) = natToDigits m := by
  apply List.takeWhile_eq_self_iff.mpr
  intro c hc
  exact natToDigits_all_digits m c hc

/-- Round trip of the platform integer rendering and parsing pair. -/
theorem jsParseInt_intToString (n : Int) : jsParseInt (intToString n) = some n := by
  by_cases h : n < 0
  · rw [intToString, if_pos h]
    show jsParseIntList ('-' :: natToDigits n.natAbs) = some n
    rw [jsParseIntList, if_pos rfl]
    simp only [takeWhile_natToDigits, List.isEmpty_iff]
    rw [if_neg (natToDigits_ne_nil _), digitsVal_natToDigits]
    congr 1
    omega
  · rw [intToString, if_neg h]
    show jsParseIntList (natToDigits n.natAbs) = some n
    rcases hnil : natToDigits n.natAbs with _ | ⟨c, rest⟩
    · exact absurd hnil (natToDigits_ne_nil _)
    · have hdig : (digitVal c).isSome := by
        apply natToDigits_all_digits n.natAbs
        rw [hnil]
        exact List.mem_cons_self _ _
      have hcr : 48 ≤ c.toNat ∧ c.toNat ≤ 57 := by
        by_contra hx
        simp [digitVal, hx] at hdig
      have hcm : c ≠ '-' := by
        intro hEq
        subst hEq
        revert hcr
        decide
      have hcp : c ≠ '+' := by
        intro hEq
        subst hEq
        revert hcr
        decide
    
      rw [jsParseIntList, if_neg hcm, if_neg hcp]
      have htw : (c :: rest).takeWhile (fun x => (digitVal x).isSome)
          = c :: rest := by
        rw [← hnil]
        exact takeWhile_natToDigits n.natAbs
      simp only [htw, List.isEmpty_iff]
      rw [if_neg (by simp)]
      rw [← hnil, digitsVal_natToDigits]
      congr 1
      omega

-- ===========================================================================
-- Platform model: base64 (`btoa` / `atob`, RFC 4648)
-- ===========================================================================

/-- The 64-character base64 alphabet. -/
def b64Alphabet : List Char :=
  "ABCDEFGHIJKLMNOPQRSTUVWXYZabcdefghijklmnopqrstuvwxyz0123456789+/".toList

/-- Alphabet character of a 6-bit group. -/
def b64Char (n : Nat) : Char := b64Alphabet.getD n 'A'

/-- Index of a character in the base64 alphabet, `none` for characters outside
it (the case in which `atob` raises). -/
def b64Val (c : Char) : Option Nat :=
  let i := b64Alphabet.indexOf c
  if i < 64 then some i else none

/-- Model of `btoa` applied to the byte-per-character binary string built in
`toFirestoreValue`: standard base64 with `=` padding, three bytes per group. -/
def base64EncodeList : List Nat → List Char
  | [] => []
  | [a] => [b64Char (a / 4), b64Char (a % 4 * 16), '=', '=']
  | [a, b] => [b64Char (a / 4), b64Char (a % 4 * 16 + b / 16),
      b64Char (b % 16 * 4), '=']
  | a :: b :: c :: rest =>
    b64Char (a / 4) :: b64Char (a % 4 * 16 + b / 16)
      :: b64Char (b % 16 * 4 + c / 64) :: b64Char (c % 64)
      :: base64EncodeList rest

/-- Model of `atob` followed by the per-character `charCodeAt` loop of
`fromFirestoreValue`: decodes four base64 characters to three bytes, handling
the two padded tails; `none` models the `InvalidCharacterError` of `atob` on
input that is not valid base64. -/
def base64DecodeList : List Char → Option (List Nat)
  | [] => some []
  | a :: b :: c :: d :: rest =>
    match b64Val a, b64Val b with
    | some va, some vb =>
      if c = '=' then
        if d = '=' ∧ rest = [] then some [va * 4 + vb / 16] else none
      else
        match b64Val c with
        | some vc =>
          if d = '=' then
            if rest = [] then some [va * 4 + vb / 16, vb % 16 * 16 + vc / 4]
            else none
          else
            match b64Val d with
            | some vd =>
              (base64DecodeList rest).map fun tail =>
                (va * 4 + vb / 16) :: (vb % 16 * 16 + vc / 4)
                  :: (vc % 4 * 64 + vd) :: tail
            | none => none
        | none => none
    | _, _ => none
  | _ => none

theorem b64Val_b64Char (n : Nat) (h : n < 64) : b64Val (b64Char n) = some n := by
  revert h
  revert n
  decide

theorem b64Char_ne_eq (n : Nat) (h : n < 64) : b64Char n ≠ '=' := by
  revert h
  revert n
  decide

/-- Round trip of the platform base64 pair on byte lists. -/
theorem base64DecodeList_base64EncodeList (bs : List Nat)
    (h : ∀ x ∈ bs, x < 256) :
    base64DecodeList (base64EncodeList bs) = some bs := by
  induction bs using base64EncodeList.induct with
  | case1 => rfl
  | case2 a =>
    have ha : a < 256 := h a (by simp)
    rw [base64EncodeList]
    simp [base64DecodeList, b64Val_b64Char (a / 4) (by omega),
      b64Val_b64Char (a % 4 * 16) (by omega)]
    omega
  | case3 a b =>
    have ha : a < 256 := h a (by simp)
    have hb : b < 256 := h b (by simp)
    rw [base64EncodeList]
    simp [base64DecodeList, b64Val_b64Char (a / 4) (by omega),
      b64Val_b64Char (a % 4 * 16 + b / 16) (by omega),
      b64Val_b64Char (b % 16 * 4) (by omega),
      b64Char_ne_eq (b % 16 * 4) (by omega)]
    omega
  | case4 a b c rest ih =>
    have ha : a < 256 := h a (by simp)
    have hb : b < 256 := h b (by simp)
    have hc : c < 256 := h c (by simp)
    have hrest : ∀ x ∈ rest, x < 256 := by
      intro x hx
      exact h x (by simp [hx])
    rw [base64EncodeList]
    simp [base64DecodeList, b64Val_b64Char (a / 4) (by omega),
      b64Val_b64Char (a % 4 * 16 + b / 16) (by omega),
      b64Val_b64Char (b % 16 * 4 + c / 64) (by omega),
      b64Val_b64Char (c % 64) (by omega),
      b64Char_ne_eq (b % 16 * 4 + c / 64) (by omega),
      b64Char_ne_eq (c % 64) (by omega),
      ih hrest]
    omega

-- ===========================================================================
-- Platform model: proleptic Gregorian calendar (JS `Date`)
-- ===========================================================================

/-- Civil date (year, month 1..12, day 1..31) of a day count relative to the
epoch 1970-01-01, by the standard era-decomposition algorithm; models the
year/month/day field extraction that `Date.prototype.toISOString` performs. -/
def civilFromDays (z : Int) : Int × Nat × Nat :=
  let era := (z + 719468) / 146097
  let doe := (z + 719468 - era * 146097).toNat
  let yoe := (doe - doe / 1460 + doe / 36524 - doe / 146096) / 365
  let doy := doe - (365 * yoe + yoe / 4 - yoe / 100)
  let mp := (5 * doy + 2) / 153
  let d := doy - (153 * mp + 2) / 5 + 1
  let m := if mp < 10 then mp + 3 else mp - 9
  ((yoe : Int) + era * 400 + (if m ≤ 2 then 1 else 0), m, d)

/-- Day count relative to 1970-01-01 of a civil date; models the ECMA-262
`MakeDay` computation performed when `new Date(string)` parses an ISO
string. -/
def daysFromCivil (y : Int) (m d : Nat) : Int :=
  let yy := if m ≤ 2 then y - 1 else y
  let era := yy / 400
  let yoe := (yy - era * 400).toNat
  let doy := (153 * (if m > 2 then m - 3 else m + 9) + 2) / 5 + d - 1
  let doe := yoe * 365 + yoe / 4 - yoe / 100 + doy
  era * 146097 + (doe : Int) - 719468

theorem yoeBounds (n : Nat) (h : n ≤ 146096) :
    365 * ((n - n / 1460 + n / 36524 - n / 146096) / 365)
      + ((n - n / 1460 + n / 36524 - n / 146096) / 365) / 4
      - ((n - n / 1460 + n / 36524 - n / 146096) / 365) / 100 ≤ n
    ∧ n < 365 * ((n - n / 1460 + n / 36524 - n / 146096) / 365)
      + ((n - n / 1460 + n / 36524 - n / 146096) / 365) / 4
      - ((n - n / 1460 + n / 36524 - n / 146096) / 365) / 100 + 366 := by
  set yoe := (n - n / 1460 + n / 36524 - n / 146096) / 365 with hy
  have hub : yoe ≤ 399 := by omega
  interval_cases yoe <;> omega

/-- The two civil conversions are mutually inverse on day counts. -/
theorem daysFromCivil_civilFromDays (z : Int) :
    daysFromCivil (civilFromDays z).1 (civilFromDays z).2.1
      (civilFromDays z).2.2 = z := by
  simp only [civilFromDays, daysFromCivil]
  set era := (z + 719468) / 146097 with heraDef
  set doe := (z + 719468 - era * 146097).toNat with hdoeDef
  have hdoeUB : doe ≤ 146096 := by omega
  have hkey := yoeBounds doe hdoeUB
  set yoe := (doe - doe / 1460 + doe / 36524 - doe / 146096) / 365 with hyoeDef
  have hyoeUB : yoe ≤ 399 := by omega
  set doy := doe - (365 * yoe + yoe / 4 - yoe / 100) with hdoyDef
  have hdoyUB : doy ≤ 365 := by omega
  set mp := (5 * doy + 2) / 153 with hmpDef
  have hmpUB : mp ≤ 11 := by omega
  clear_value era doe yoe doy mp
  clear hyoeDef
  have hA : 153 * mp ≤ 5 * doy + 2 := by omega
  have hB : (153 * mp + 2) / 5 ≤ doy := by omega
  by_cases hmp : mp < 10
  · simp only [if_pos hmp]
    have h1 : ¬ (mp + 3 ≤ 2) := by omega
    have h2 : mp + 3 > 2 := by omega
    simp only [if_neg h1, if_pos h2]
    have hEra2 : ((yoe : Int) + era * 400 + 0) / 400 = era := by omega
    rw [hEra2]
    have hYoe2 : ((yoe : Int) + era * 400 + 0 - era * 400).toNat = yoe := by omega
    rw [hYoe2]
    omega
  · simp only [if_neg hmp]
    have h1 : mp - 9 ≤ 2 := by omega
    have h2 : ¬ (mp - 9 > 2) := by omega
    simp only [if_pos h1, if_neg h2]
    have hEra2 : ((yoe : Int) + era * 400 + 1 - 1) / 400 = era := by omega
    rw [hEra2]
    have hYoe2 : ((yoe : Int) + era * 400 + 1 - 1 - era * 400).toNat = yoe := by omega
    rw [hYoe2]
    omega

theorem digitVal_digitChar (m : Nat) (h : m < 10) :
    digitVal (digitChar m) = some m := by
  revert h
  revert m
  decide

theorem civilFromDays_md_bounds (z : Int) :
    1 ≤ (civilFromDays z).2.1 ∧ (civilFromDays z).2.1 ≤ 12
    ∧ 1 ≤ (civilFromDays z).2.2 ∧ (civilFromDays z).2.2 ≤ 31 := by
  simp only [civilFromDays]
  set era := (z + 719468) / 146097 with heraDef
  set doe := (z + 719468 - era * 146097).toNat with hdoeDef
  have hdoeUB : doe ≤ 146096 := by omega
  have hkey := yoeBounds doe hdoeUB
  set yoe := (doe - doe / 1460 + doe / 36524 - doe / 146096) / 365 with hyoeDef
  have hyoeUB : yoe ≤ 399 := by omega
  set doy := doe - (365 * yoe + yoe / 4 - yoe / 100) with hdoyDef
  have hdoyUB : doy ≤ 365 := by omega
  set mp := (5 * doy + 2) / 153 with hmpDef
  have hmpUB : mp ≤ 11 := by omega
  clear_value era doe yoe doy mp
  clear hyoeDef
  have hA : 153 * mp ≤ 5 * doy + 2 := by omega
  have hB : (153 * mp + 2) / 5 ≤ doy := by omega
  have hC : doy - 30 ≤ (153 * mp + 2) / 5 := by omega
  by_cases hmp : mp < 10
  · simp only [if_pos hmp]
    omega
  · simp only [if_neg hmp]
    omega

theorem civilFromDays_year_bounds (z : Int) (h1 : -719528 ≤ z)
    (h2 : z ≤ 2932896) :
    0 ≤ (civilFromDays z).1 ∧ (civilFromDays z).1 ≤ 9999 := by
  simp only [civilFromDays]
  set era := (z + 719468) / 146097 with heraDef
  set doe := (z + 719468 - era * 146097).toNat with hdoeDef
  have hdoeUB : doe ≤ 146096 := by omega
  have hkey := yoeBounds doe hdoeUB
  set yoe := (doe - doe / 1460 + doe / 36524 - doe / 146096) / 365 with hyoeDef
  have hyoeUB : yoe ≤ 399 := by omega
  set doy := doe - (365 * yoe + yoe / 4 - yoe / 100) with hdoyDef
  have hdoyUB : doy ≤ 365 := by omega
  set mp := (5 * doy + 2) / 153 with hmpDef
  have hmpUB : mp ≤ 11 := by omega
  clear_value era doe yoe doy mp
  clear hyoeDef
  have hEraRange : -1 ≤ era ∧ era ≤ 24 := by omega
  have hyoe399 : era = -1 → yoe = 399 := by
    intro hE
    have hdoeLB : 146037 ≤ doe := by omega
    omega
  have hmp10 : era = -1 → 10 ≤ mp := by
    intro hE
    have h399 := hyoe399 hE
    have hdoeLB : 146037 ≤ doe := by omega
    omega
  have hmpHigh : era = 24 → yoe = 399 → mp ≤ 9 := by
    intro hE h399
    have hdoeUB2 : doe ≤ 146036 := by omega
    omega
  by_cases hmp : mp < 10
  · simp only [if_pos hmp]
    have hx1 : ¬ (mp + 3 ≤ 2) := by omega
    simp only [if_neg hx1]
    omega
  · simp only [if_neg hmp]
    have hx1 : mp - 9 ≤ 2 := by omega
    simp only [if_pos hx1]
    omega

-- ===========================================================================
-- Platform model: ISO-8601 rendering and parsing of timestamps
-- ===========================================================================

/-- Fixed-width two-digit decimal rendering. -/
def pad2 (n : Nat) : List Char := [digitChar (n / 10 % 10), digitChar (n % 10)]

/-- Fixed-width three-digit decimal rendering. -/
def pad3 (n : Nat) : List Char :=
  [digitChar (n / 100 % 10), digitChar (n / 10 % 10), digitChar (n % 10)]

/-- Fixed-width four-digit decimal rendering. -/
def pad4 (n : Nat) : List Char :=
  [digitChar (n / 1000 % 10), digitChar (n / 100 % 10), digitChar (n / 10 % 10),
    digitChar (n % 10)]

/-- Model of `Date.prototype.toISOString` on an integral epoch-millisecond
value as a character list: `YYYY-MM-DDTHH:mm:ss.sssZ` (the four-digit-year
window; the expanded-year rendering outside years 0..9999 is not modelled,
and the supported-value predicate restricts dates to this window). -/
def toISOCharsMs (ms : Int) : List Char :=
  let days := ms / 86400000
  let msod := (ms % 86400000).toNat
  let c := civilFromDays days
  pad4 c.1.toNat ++ '-' :: pad2 c.2.1 ++ '-' :: pad2 c.2.2
    ++ 'T' :: pad2 (msod / 3600000) ++ ':' :: pad2 (msod % 3600000 / 60000)
    ++ ':' :: pad2 (msod % 60000 / 1000) ++ '.' :: pad3 (msod % 1000) ++ ['Z']

/-- Model of `Date.prototype.toISOString` producing a string. -/
def toISOStringMs (ms : Int) : String := String.mk (toISOCharsMs ms)

/-- Model of the `new Date(string)` ISO parser on a character list for the
`YYYY-MM-DDTHH:mm:ss.sssZ` shape the codec produces: extract the digit
fields and recombine via the ECMA `MakeDay`/`MakeTime` arithmetic; `none`
models an invalid date. -/
def parseISOList : List Char → Option Int
  | [y1, y2, y3, y4, s1, a1, a2, s2, b1, b2, s3, c1, c2, s4, e1, e2, s5,
      f1, f2, s6, g1, g2, g3, s7] =>
    if s1 = '-' ∧ s2 = '-' ∧ s3 = 'T' ∧ s4 = ':' ∧ s5 = ':' ∧ s6 = '.'
        ∧ s7 = 'Z' then
      match digitVal y1, digitVal y2, digitVal y3, digitVal y4, digitVal a1,
        digitVal a2, digitVal b1, digitVal b2, digitVal c1, digitVal c2,
        digitVal e1, digitVal e2, digitVal f1, digitVal f2, digitVal g1,
        digitVal g2, digitVal g3 with
      | some v1, some v2, some v3, some v4, some w1, some w2, some x1,
        some x2, some u1, some u2, some p1, some p2, some q1, some q2,
        some r1, some r2, some r3 =>
        some (daysFromCivil
            ((v1 * 1000 + v2 * 100 + v3 * 10 + v4 : Nat) : Int)
            (w1 * 10 + w2) (x1 * 10 + x2) * 86400000
          + ((u1 * 10 + u2) * 3600000 + (p1 * 10 + p2) * 60000
            + (q1 * 10 + q2) * 1000 + (r1 * 100 + r2 * 10 + r3) : Nat))
      | _, _, _, _, _, _, _, _, _, _, _, _, _, _, _, _, _ => none
    else none
  | _ => none

/-- Model of the `new Date(string)` ISO parser on strings. -/
def parseISOMs (s : String) : Option Int := parseISOList s.toList

/-- Round trip of the platform timestamp rendering and parsing pair on the
four-digit-year window. -/
theorem parseISOList_toISOCharsMs (ms : Int)
    (h1 : -62167219200000 ≤ ms) (h2 : ms < 253402300800000) :
    parseISOList (toISOCharsMs ms) = some ms := by
  simp only [toISOCharsMs]
  set days := ms / 86400000 with hdaysDef
  set msod := (ms % 86400000).toNat with hmsodDef
  have hdays1 : -719528 ≤ days := by omega
  have hdays2 : days ≤ 2932896 := by omega
  have hmsod : msod < 86400000 := by omega
  have hyb := civilFromDays_year_bounds days hdays1 hdays2
  have hmd := civilFromDays_md_bounds days
  have hrt := daysFromCivil_civilFromDays days
  set Y := (civilFromDays days).1 with hYDef
  set MO := (civilFromDays days).2.1 with hMODef
  set D := (civilFromDays days).2.2 with hDDef
  clear_value Y MO D
  clear hYDef hMODef hDDef
  set YN := Y.toNat with hYNDef
  have hYN : YN ≤ 9999 := by omega
  have hMO : MO ≤ 12 := by omega
  have hD : D ≤ 31 := by omega
  have hHH : msod / 3600000 ≤ 23 := by omega
  have hMI : msod % 3600000 / 60000 ≤ 59 := by omega
  have hSS : msod % 60000 / 1000 ≤ 59 := by omega
  have hFS : msod % 1000 ≤ 999 := by omega
  simp only [pad4, pad3, pad2, List.cons_append, List.nil_append,
    List.append_assoc]
  simp only [parseISOList,
    digitVal_digitChar (YN / 1000 % 10) (by omega),
    digitVal_digitChar (YN / 100 % 10) (by omega),
    digitVal_digitChar (YN / 10 % 10) (by omega),
    digitVal_digitChar (YN % 10) (by omega),
    digitVal_digitChar (MO / 10 % 10) (by omega),
    digitVal_digitChar (MO % 10) (by omega),
    digitVal_digitChar (D / 10 % 10) (by omega),
    digitVal_digitChar (D % 10) (by omega),
    digitVal_digitChar (msod / 3600000 / 10 % 10) (by omega),
    digitVal_digitChar (msod / 3600000 % 10) (by omega),
    digitVal_digitChar (msod % 3600000 / 60000 / 10 % 10) (by omega),
    digitVal_digitChar (msod % 3600000 / 60000 % 10) (by omega),
    digitVal_digitChar (msod % 60000 / 1000 / 10 % 10) (by omega),
    digitVal_digitChar (msod % 60000 / 1000 % 10) (by omega),
    digitVal_digitChar (msod % 1000 / 100 % 10) (by omega),
    digitVal_digitChar (msod % 1000 / 10 % 10) (by omega),
    digitVal_digitChar (msod % 1000 % 10) (by omega)]
  have hYrec : ((YN / 1000 % 10 * 1000 + YN / 100 % 10 * 100
      + YN / 10 % 10 * 10 + YN % 10 : Nat) : Int) = Y := by omega
  have hMOrec : MO / 10 % 10 * 10 + MO % 10 = MO := by omega
  have hDrec : D / 10 % 10 * 10 + D % 10 = D := by omega
  rw [hYrec, hMOrec, hDrec, hrt,
    if_pos (⟨trivial, trivial, trivial, trivial, trivial, trivial, trivial⟩ :
      True ∧ True ∧ True ∧ True ∧ True ∧ True ∧ True)]
  congr 1
  omega

-- ===========================================================================
-- Value codec (`value.ts`): JavaScript values to wire values and back
-- ===========================================================================

/-- The number branch of `toFirestoreValue`: `Number.isInteger(value)` (here:
denominator one) yields `integerValue` with the decimal string, any other
number yields `doubleValue`.  Factored out because `fieldValueToTransform`
also encodes its numeric increment amount through the same branch. -/
def encodeNumber (q : Rat) : FirestoreValue :=
  if q.den = 1 then .integerValue (intToString q.num) else .doubleValue q

/-- The `Timestamp.toDate()` conversion used by the `Timestamp` branch of
`toFirestoreValue`: `new Date(seconds * 1000 + nanoseconds / 1e6)`, with the
ECMA `TimeClip` truncation toward zero of a fractional millisecond value. -/
def tsToDateMs (seconds nanoseconds : Rat) : Int :=
  let t := seconds * 1000 + nanoseconds / 1000000
  t.num.tdiv (t.den : Int)

mutual

/-- Embedding of `toFirestoreValue` from `value.ts`.  The branches follow the
source order (null, undefined, boolean, number, string, `Date`, `Timestamp`,
`GeoPoint`, `Uint8Array`, array, object); the object branch skips entries
whose value is a `FieldValue` sentinel.  A sentinel given directly (not as a
map entry) falls through to the object branch and is encoded as the map of
its own marker properties, as in the source; the property order of that
marker map is irrelevant to every claim below.  The `UnsupportedType` throw
of the source concerns native types (symbol, function, bigint) that have no
constructor in the model. -/
def toFirestoreValue : JSValue → FirestoreValue
  | .null => .nullValue
  | .undef => .nullValue
  | .bool b => .booleanValue b
  | .num q => encodeNumber q
  | .str s => .stringValue s
  | .date ms => .timestampValue (toISOStringMs ms)
  | .tsval s n => .timestampValue (toISOStringMs (tsToDateMs s n))
  | .geo la lo => .geoPointValue la lo
  | .bytes bs => .bytesValue (String.mk (base64EncodeList bs))
  | .arr xs => .arrayValue (toFirestoreValueList xs)
  | .map es => .mapValue (toFirestoreMapEntries es)
  | .fvServerTimestamp => .mapValue
      [("__isFieldValue__", .booleanValue true),
       ("_type", .stringValue "serverTimestamp")]
  | .fvDelete => .mapValue
      [("__isFieldValue__", .booleanValue true),
       ("_type", .stringValue "delete")]
  | .fvIncrement q => .mapValue
      [("__isFieldValue__", .booleanValue true),
       ("_type", .stringValue "increment"), ("amount", encodeNumber q)]
  | .fvArrayUnion xs => .mapValue
      [("__isFieldValue__", .booleanValue true),
       ("_type", .stringValue "arrayUnion"),
       ("elements", .arrayValue (toFirestoreValueList xs))]
  | .fvArrayRemove xs => .mapValue
      [("__isFieldValue__", .booleanValue true),
       ("_type", .stringValue "arrayRemove"),
       ("elements", .arrayValue (toFirestoreValueList xs))]

/-- The `value.map(toFirestoreValue)` loop of the array branch. -/
def toFirestoreValueList : List JSValue → List FirestoreValue
  | [] => []
  | x :: rest => toFirestoreValue x :: toFirestoreValueList rest

/-- The `Object.entries` loop of the object branch of `toFirestoreValue`:
entries whose value is a `FieldValue` sentinel are skipped. -/
def toFirestoreMapEntries : List (String × JSValue) → List (String × FirestoreValue)
  | [] => []
  | (k, v) :: rest =>
    if isFieldValue v then toFirestoreMapEntries rest
    else (k, toFirestoreValue v) :: toFirestoreMapEntries rest

end

/-- Embedding of `toFirestoreFields` from `value.ts`: the same
sentinel-skipping entry loop applied to a top-level document. -/
def toFirestoreFields (data : List (String × JSValue)) :
    List (String × FirestoreValue) :=
  toFirestoreMapEntries data

mutual

/-- Embedding of `fromFirestoreValue` from `value.ts`.  The tag dispatch
follows the source order.  `parseInt` returning `NaN` (an integer string
that parses to no digits) and `new Date` yielding an invalid date are
modelled as errors, as is the `atob` throw on invalid base64 and the
`GeoPoint` constructor throw on out-of-range coordinates; the final
`Unknown Firestore value type` throw concerns wire values with no populated
tag, which have no constructor in the model. -/
def fromFirestoreValue : FirestoreValue → Except String JSValue
  | .nullValue => .ok .null
  | .booleanValue b => .ok (.bool b)
  | .integerValue s =>
    match jsParseInt s with
    | some n => .ok (.num (n : Rat))
    | none => .error "NaN"
  | .doubleValue q => .ok (.num q)
  | .timestampValue s =>
    match parseISOMs s with
    | some ms => .ok (.date ms)
    | none => .error "Invalid Date"
  | .stringValue s => .ok (.str s)
  | .bytesValue s =>
    match base64DecodeList s.toList with
    | some bs => .ok (.bytes bs)
    | none => .error "InvalidCharacterError"
  | .referenceValue s => .ok (.str s)
  | .geoPointValue la lo =>
    if la < -90 ∨ la > 90 then .error "Latitude must be between -90 and 90"
    else if lo < -180 ∨ lo > 180 then
      .error "Longitude must be between -180 and 180"
    else .ok (.geo la lo)
  | .arrayValue vs =>
    match fromFirestoreValueList vs with
    | .ok l => .ok (.arr l)
    | .error e => .error e
  | .mapValue fs =>
    match fromFirestoreEntries fs with
    | .ok l => .ok (.map l)
    | .error e => .error e

/-- The `(values ?? []).map(fromFirestoreValue)` loop, with a thrown error
propagating out of the whole loop. -/
def fromFirestoreValueList : List FirestoreValue → Except String (List JSValue)
  | [] => .ok []
  | v :: rest =>
    match fromFirestoreValue v with
    | .ok x =>
      match fromFirestoreValueList rest with
      | .ok l => .ok (x :: l)
      | .error e => .error e
    | .error e => .error e

/-- The entry loop of `fromFirestoreFields`. -/
def fromFirestoreEntries : List (String × FirestoreValue) →
    Except String (List (String × JSValue))
  | [] => .ok []
  | (k, v) :: rest =>
    match fromFirestoreValue v with
    | .ok x =>
      match fromFirestoreEntries rest with
      | .ok l => .ok ((k, x) :: l)
      | .error e => .error e
    | .error e => .error e

end

/-- Embedding of `fromFirestoreFields` from `value.ts`. -/
def fromFirestoreFields (fs : List (String × FirestoreValue)) :
    Except String (List (String × JSValue)) :=
  fromFirestoreEntries fs

mutual

/-- The supported native-value domain of the round-trip claim: null, bool,
number, string, a `Date` within the four-digit-year ISO window, an in-range
geopoint, a byte buffer, and lists and plain sentinel-free maps of such
values.  `undefined`, the sentinels, and the `Timestamp` convenience class
(whose decoding canonicalizes to `Date`) are outside the domain. -/
def supportedValue : JSValue → Bool
  | .null => true
  | .undef => false
  | .bool _ => true
  | .num _ => true
  | .str _ => true
  | .date ms => decide (-62167219200000 ≤ ms) && decide (ms < 253402300800000)
  | .tsval _ _ => false
  | .geo la lo => decide (-90 ≤ la) && decide (la ≤ 90)
      && decide (-180 ≤ lo) && decide (lo ≤ 180)
  | .bytes bs => bs.all fun b => b < 256
  | .arr xs => supportedList xs
  | .map es => supportedEntries es
  | .fvServerTimestamp => false
  | .fvDelete => false
  | .fvIncrement _ => false
  | .fvArrayUnion _ => false
  | .fvArrayRemove _ => false

/-- Support of every element of a list. -/
def supportedList : List JSValue → Bool
  | [] => true
  | x :: rest => supportedValue x && supportedList rest

/-- Support of every entry value of an entry list. -/
def supportedEntries : List (String × JSValue) → Bool
  | [] => true
  | (_, v) :: rest => supportedValue v && supportedEntries rest

end

theorem supportedValue_not_fieldValue (v : JSValue)
    (h : supportedValue v = true) : isFieldValue v = false := by
  cases v <;> simp_all [supportedValue, isFieldValue]

mutual

theorem fromTo_value (v : JSValue) (h : supportedValue v = true) :
    fromFirestoreValue (toFirestoreValue v) = .ok v := by
  cases v with
  | null => rfl
  | undef => simp [supportedValue] at h
  | bool b => rfl
  | num q =>
    show fromFirestoreValue (encodeNumber q) = _
    rw [encodeNumber]
    by_cases hd : q.den = 1
    · rw [if_pos hd]
      simp only [fromFirestoreValue, jsParseInt_intToString]
      rw [Rat.coe_int_num_of_den_eq_one hd]
    · rw [if_neg hd]
      rfl
  | str s => rfl
  | date ms =>
    simp only [supportedValue, Bool.and_eq_true, decide_eq_true_eq] at h
    simp only [toFirestoreValue, fromFirestoreValue]
    rw [show parseISOMs (toISOStringMs ms) = parseISOList (toISOCharsMs ms)
        from rfl,
      parseISOList_toISOCharsMs ms h.1 h.2]
  | tsval s n => simp [supportedValue] at h
  | geo la lo =>
    simp only [supportedValue, Bool.and_eq_true, decide_eq_true_eq] at h
    obtain ⟨⟨⟨hla1, hla2⟩, hlo1⟩, hlo2⟩ := h
    simp only [toFirestoreValue, fromFirestoreValue]
    rw [if_neg (by push_neg; exact ⟨hla1, hla2⟩),
      if_neg (by push_neg; exact ⟨hlo1, hlo2⟩)]
  | bytes bs =>
    simp only [supportedValue, List.all_eq_true, decide_eq_true_eq] at h
    simp only [toFirestoreValue, fromFirestoreValue]
    rw [show (String.mk (base64EncodeList bs)).toList = base64EncodeList bs
        from rfl,
      base64DecodeList_base64EncodeList bs h]
  | arr xs =>
    have hxs : supportedList xs = true := h
    simp only [toFirestoreValue, fromFirestoreValue, fromTo_list xs hxs]
  | map es =>
    have hes : supportedEntries es = true := h
    simp only [toFirestoreValue, fromFirestoreValue, fromTo_entries es hes]
  | fvServerTimestamp => simp [supportedValue] at h
  | fvDelete => simp [supportedValue] at h
  | fvIncrement q => simp [supportedValue] at h
  | fvArrayUnion xs => simp [supportedValue] at h
  | fvArrayRemove xs => simp [supportedValue] at h

theorem fromTo_list (xs : List JSValue) (h : supportedList xs = true) :
    fromFirestoreValueList (toFirestoreValueList xs) = .ok xs := by
  cases xs with
  | nil => rfl
  | cons x rest =>
    have hx : supportedValue x = true ∧ supportedList rest = true := by
      simpa [supportedList, Bool.and_eq_true] using h
    simp only [toFirestoreValueList, fromFirestoreValueList,
      fromTo_value x hx.1, fromTo_list rest hx.2]

theorem fromTo_entries (es : List (String × JSValue))
    (h : supportedEntries es = true) :
    fromFirestoreEntries (toFirestoreMapEntries es) = .ok es := by
  cases es with
  | nil => rfl
  | cons kv rest =>
    match kv with
    | (k, v) =>
      have hx : supportedValue v = true ∧ supportedEntries rest = true := by
        simpa [supportedEntries, Bool.and_eq_true] using h
      simp only [toFirestoreMapEntries,
        supportedValue_not_fieldValue v hx.1, Bool.false_eq_true, if_false,
        fromFirestoreEntries, fromTo_value v hx.1, fromTo_entries rest hx.2]

end

-- ===========================================================================
-- Sentinel/transform system (`value.ts`): transforms, delete paths,
-- transform paths
-- ===========================================================================

/-- Embedding of `isDeleteField` from `field-value.ts`. -/
def isDeleteField : JSValue → Bool
  | .fvDelete => true
  | _ => false

/-- A wire field transform (`FieldTransform` of `types.ts`): a field path
plus exactly one transform operation. -/
inductive TransformOp where
  | setToServerValue
  | increment (value : FirestoreValue)
  | appendMissingElements (values : List FirestoreValue)
  | removeAllFromArray (values : List FirestoreValue)

/-- A field transform record: quoted field path and operation. -/
structure FieldTransform where
  fieldPath : String
  op : TransformOp

/-- Embedding of `fieldValueToTransform` from `value.ts`: `ServerTimestamp`
maps to `REQUEST_TIME`, `Delete` to no transform, `Increment` to a numeric
increment with the encoded amount, `ArrayUnion`/`ArrayRemove` to
append-missing/remove-all with the encoded element lists (the source
defaults absent element lists with `?? []`; in the model the constructor
always carries its list). -/
def fieldValueToTransform : JSValue → String → Option FieldTransform
  | .fvServerTimestamp, p => some ⟨p, .setToServerValue⟩
  | .fvDelete, _ => none
  | .fvIncrement q, p => some ⟨p, .increment (encodeNumber q)⟩
  | .fvArrayUnion xs, p => some ⟨p, .appendMissingElements (toFirestoreValueList xs)⟩
  | .fvArrayRemove xs, p => some ⟨p, .removeAllFromArray (toFirestoreValueList xs)⟩
  | _, _ => none

/-- The shared key-quoting step of the three extraction loops:
`key.includes(".") ? quoteFieldPath(key) : quoteFieldPathSegment(key)`. -/
def quotedKeyOf (k : String) : String :=
  if k.toList.contains '.' then quoteFieldPath k else quoteFieldPathSegment k

/-- The shared path-joining step:
`pathPrefix ? pathPrefix + "." + quotedKey : quotedKey`. -/
def joinPath (pre quotedKey : String) : String :=
  if pre = "" then quotedKey else pre ++ "." ++ quotedKey

/-- The recursion guard shared by the three extraction loops, as the entry
list the loop descends into.  The guard admits any non-null object that is
not an array, not a `Date`, not a `Timestamp`, not a `GeoPoint` and not a
`Uint8Array`: a plain map contributes its entries.  For a sentinel the
source descends into its marker object (`__isFieldValue__ : bool`,
`_type : string`, and possibly `amount : number` or `elements : array`),
none of whose entries is a sentinel or a plain object, so that descent
contributes nothing and is modelled as no child entries; every other value
is not descended into, likewise modelled as no child entries (descending
into an empty entry list and not descending both contribute nothing). -/
def extractChildEntries : JSValue → List (String × JSValue)
  | .map es => es
  | _ => []

theorem sizeOf_extractChildEntries (v : JSValue) :
    sizeOf (extractChildEntries v) ≤ sizeOf v := by
  cases v <;> simp [extractChildEntries] <;> omega

/-- Embedding of `extractFieldTransforms` from `value.ts`: walk the entries
in insertion order; a sentinel-valued entry contributes the transform of
`fieldValueToTransform` (none for Delete) at its quoted path; any other
entry is descended into per the object guard with the extended path
prefix. -/
def extractFieldTransforms : List (String × JSValue) → String → List FieldTransform
  | [], _ => []
  | (k, v) :: rest, pre =>
    let fp := joinPath pre (quotedKeyOf k)
    (if isFieldValue v then (fieldValueToTransform v fp).toList
     else extractFieldTransforms (extractChildEntries v) fp)
    ++ extractFieldTransforms rest pre
termination_by data _ => sizeOf data
decreasing_by
  · have h := sizeOf_extractChildEntries v
    simp only [Prod.mk.sizeOf_spec, List.cons.sizeOf_spec]
    omega
  · simp only [Prod.mk.sizeOf_spec, List.cons.sizeOf_spec]
    omega

/-- Embedding of `extractDeleteFields` from `value.ts`: quoted paths of the
entries whose immediate value is the Delete sentinel, descending into other
values per the object guard. -/
def extractDeleteFields : List (String × JSValue) → String → List String
  | [], _ => []
  | (k, v) :: rest, pre =>
    let fp := joinPath pre (quotedKeyOf k)
    (if isFieldValue v && isDeleteField v then [fp]
     else extractDeleteFields (extractChildEntries v) fp)
    ++ extractDeleteFields rest pre
termination_by data _ => sizeOf data
decreasing_by
  · have h := sizeOf_extractChildEntries v
    simp only [Prod.mk.sizeOf_spec, List.cons.sizeOf_spec]
    omega
  · simp only [Prod.mk.sizeOf_spec, List.cons.sizeOf_spec]
    omega

/-- Embedding of `extractTransformFields` from `value.ts`: quoted paths of
the entries whose immediate value is a non-Delete sentinel, descending into
other values per the object guard. -/
def extractTransformFields : List (String × JSValue) → String → List String
  | [], _ => []
  | (k, v) :: rest, pre =>
    let fp := joinPath pre (quotedKeyOf k)
    (if isFieldValue v && !isDeleteField v then [fp]
     else extractTransformFields (extractChildEntries v) fp)
    ++ extractTransformFields rest pre
termination_by data _ => sizeOf data
decreasing_by
  · have h := sizeOf_extractChildEntries v
    simp only [Prod.mk.sizeOf_spec, List.cons.sizeOf_spec]
    omega
  · simp only [Prod.mk.sizeOf_spec, List.cons.sizeOf_spec]
    omega

-- ===========================================================================
-- Field-path enumeration (`utils.ts` `getFieldPaths`) and the update mask
-- ===========================================================================

/-- The indexed own properties of a `Uint8Array` as `Object.keys` exposes
them: decimal index strings mapping to the byte values (numbers). -/
def byteEntries : Nat → List Nat → List (String × JSValue)
  | _, [] => []
  | i, b :: rest =>
    (String.mk (natToDigits i), .num (b : Rat)) :: byteEntries (i + 1) rest

mutual

/-- Termination measure for the `getFieldPaths` recursion, which can enter
the entry lists produced by `getFieldPathsEntries` (nested maps, `Timestamp`
properties, `Uint8Array` indices); key strings do not contribute, so the
measure of an entry list produced for a value is bounded by the measure of
the value. -/
def vWeight : JSValue → Nat
  | .map es => 2 + eWeight es
  | .tsval _ _ => 5
  | .bytes bs => 2 + 2 * bs.length
  | _ => 1

/-- Entry-list component of the `getFieldPaths` termination measure. -/
def eWeight : List (String × JSValue) → Nat
  | [] => 0
  | (_, v) :: rest => 1 + vWeight v + eWeight rest

end

theorem eWeight_byteEntries (bs : List Nat) :
    ∀ i, eWeight (byteEntries i bs) = 2 * bs.length := by
  induction bs with
  | nil => intro i; rfl
  | cons b rest ih =>
    intro i
    simp only [byteEntries, eWeight, vWeight, ih (i + 1), List.length_cons]
    omega

/-- The recursion guard of `getFieldPaths` as a partial entry extractor: the
source recurses when the value is a non-null object that is not an array,
not a `Date`, not a `FieldValue` sentinel, has at least one own key, and
does not have both a `latitude` and a `longitude` key.  In the model that
admits a nonempty plain map that is not geopoint-shaped (by its entries),
a `Timestamp` instance (own properties `seconds`, `nanoseconds`), and a
nonempty `Uint8Array` (its index properties); a `GeoPoint` instance is
excluded by the latitude/longitude guard, and everything else is a leaf. -/
def getFieldPathsEntries : JSValue → Option (List (String × JSValue))
  | .map es =>
    if es.isEmpty then none
    else if (es.any fun kv => kv.1 == "latitude")
        && (es.any fun kv => kv.1 == "longitude") then none
    else some es
  | .tsval s n => some [("seconds", .num s), ("nanoseconds", .num n)]
  | .bytes bs => if bs.isEmpty then none else some (byteEntries 0 bs)
  | _ => none

theorem eWeight_le_of_entries (v : JSValue) (es : List (String × JSValue))
    (h : getFieldPathsEntries v = some es) : eWeight es ≤ vWeight v := by
  cases v
  case map es2 =>
    simp only [getFieldPathsEntries] at h
    by_cases h1 : es2.isEmpty
    · rw [if_pos h1] at h
      exact absurd h (by simp)
    · rw [if_neg h1] at h
      by_cases h2 : (es2.any fun kv => kv.1 == "latitude")
          && (es2.any fun kv => kv.1 == "longitude")
      · rw [if_pos h2] at h
        exact absurd h (by simp)
      · rw [if_neg h2] at h
        have : es2 = es := by
          simpa using h
        subst this
        simp [vWeight]
  case tsval s n =>
    simp only [getFieldPathsEntries, Option.some.injEq] at h
    subst h
    simp [eWeight, vWeight]
  case bytes bs =>
    simp only [getFieldPathsEntries] at h
    by_cases h1 : bs.isEmpty
    · rw [if_pos h1] at h
      exact absurd h (by simp)
    · rw [if_neg h1] at h
      have : byteEntries 0 bs = es := by simpa using h
      subst this
      rw [eWeight_byteEntries bs 0]
      simp [vWeight]
  all_goals simp [getFieldPathsEntries] at h

/-- Embedding of `getFieldPaths` from `utils.ts`: keys containing a dot are
pushed as whole quoted paths (without the current prefix, exactly as the
source does); other keys extend the prefix with their quoted segment, then
either recurse (per the object guard of `getFieldPathsEntries`) or push the
extended path as a leaf. -/
def getFieldPaths : List (String × JSValue) → String → List String
  | [], _ => []
  | (k, v) :: rest, pre =>
    (if k.toList.contains '.' then [quoteFieldPath k]
     else
       match hrec : getFieldPathsEntries v with
       | some es => getFieldPaths es (joinPath pre (quoteFieldPathSegment k))
       | none => [joinPath pre (quoteFieldPathSegment k)])
    ++ getFieldPaths rest pre
termination_by data _ => eWeight data
decreasing_by
  · have h := eWeight_le_of_entries v es hrec
    simp only [eWeight]
    omega
  · simp only [eWeight]
    omega

/-- The update-mask computation shared by `Firestore._updateDocument` and
`Transaction.update`: all field paths, minus those covered by a delete or a
transform, then the delete paths appended (transform paths stay excluded
from the mask). -/
def updateMaskFieldPaths (data : List (String × JSValue)) : List String :=
  let deleteFields := extractDeleteFields data ""
  let transformFields := extractTransformFields data ""
  let fieldPaths := (getFieldPaths data "").filter fun p =>
    !(deleteFields.contains p) && !(transformFields.contains p)
  fieldPaths ++ deleteFields

/-- Recursion guard of the claim-side leaf enumeration: a nonempty plain
map is traversed, everything else is a leaf. -/
def specChildEntries : JSValue → Option (List (String × JSValue))
  | .map (e :: t) => some (e :: t)
  | _ => none

theorem sizeOf_specChildEntries (v : JSValue) (es : List (String × JSValue))
    (h : specChildEntries v = some es) : sizeOf es ≤ sizeOf v := by
  cases v
  case map es2 =>
    cases es2 with
    | nil => simp [specChildEntries] at h
    | cons e t =>
      have h2 : es = e :: t := by simpa [specChildEntries] using h.symm
      subst h2
      simp
  all_goals simp [specChildEntries] at h

/-- Claim-side definition following the update-mask sentence of the spec:
the quoted path of every plain leaf field, where a sentinel-valued entry is
not a plain field, dotted keys are exploded into per-segment-quoted paths
with the current prefix preserved, and a plain nested nonempty map is
traversed; an empty map, and every other value, is a leaf. -/
def specPlainLeafPaths : List (String × JSValue) → String → List String
  | [], _ => []
  | (k, v) :: rest, pre =>
    let fp := joinPath pre (quotedKeyOf k)
    (if isFieldValue v then []
     else
       match hsp : specChildEntries v with
       | some es => specPlainLeafPaths es fp
       | none => [fp])
    ++ specPlainLeafPaths rest pre
termination_by data _ => sizeOf data
decreasing_by
  · have h := sizeOf_specChildEntries v _ hsp
    simp only [Prod.mk.sizeOf_spec, List.cons.sizeOf_spec]
    omega
  · simp only [Prod.mk.sizeOf_spec, List.cons.sizeOf_spec]
    omega

/-- Claim-side update mask: plain leaf paths not covered by a transform or a
delete, then every delete path. -/
def specUpdateMask (data : List (String × JSValue)) : List String :=
  let deleteFields := extractDeleteFields data ""
  let transformFields := extractTransformFields data ""
  ((specPlainLeafPaths data "").filter fun p =>
    !(deleteFields.contains p) && !(transformFields.contains p)) ++ deleteFields

-- ===========================================================================
-- Structured query compiler (`query.ts`)
-- ===========================================================================

/-- SDK-level comparison operator tokens of `where` (`WhereFilterOp`). -/
inductive WhereFilterOp where
  | lt | le | eq | ne | ge | gt
  | arrayContains | arrayContainsAny | whereIn | whereNotIn
deriving DecidableEq

/-- Wire-level field-filter operator strings. -/
inductive WireOperator where
  | lessThan | lessThanOrEqual | equal | notEqual
  | greaterThanOrEqual | greaterThan
  | arrayContains | arrayContainsAny | opIn | notIn
deriving DecidableEq

/-- Embedding of `OPERATOR_MAP` / `getRestOperator` from `query.ts`. -/
def getRestOperator : WhereFilterOp → WireOperator
  | .lt => .lessThan
  | .le => .lessThanOrEqual
  | .eq => .equal
  | .ne => .notEqual
  | .ge => .greaterThanOrEqual
  | .gt => .greaterThan
  | .arrayContains => .arrayContains
  | .arrayContainsAny => .arrayContainsAny
  | .whereIn => .opIn
  | .whereNotIn => .notIn

/-- A wire field reference. -/
structure FieldReference where
  fieldPath : String
deriving DecidableEq

/-- Wire order direction. -/
inductive WireDirection where
  | ascending
  | descending
deriving DecidableEq

/-- A wire ordering clause; the builder always populates the direction. -/
structure Order where
  field : FieldReference
  direction : WireDirection
deriving DecidableEq

/-- Composite filter operator. -/
inductive CompositeOp where
  | and
  | or
deriving DecidableEq

/-- The wire filter union of `types.ts`, named `WireFilter` to avoid the
Mathlib `Filter` (the unary variant exists in the types but is never
produced by this builder). -/
inductive WireFilter where
  | fieldFilter (field : FieldReference) (op : WireOperator)
      (value : FirestoreValue)
  | compositeFilter (op : CompositeOp) (filters : List WireFilter)
  | unaryFilter (op : String) (field : FieldReference)

/-- A wire cursor: encoded values plus the before flag. -/
structure Cursor where
  values : List FirestoreValue
  before : Bool

/-- A wire projection. -/
structure Projection where
  fields : List FieldReference

/-- Embedding of the internal `QueryConstraints` record of `query.ts`.
Counts are integers so that the negative-count guards are expressible;
cursors hold the raw values plus the before flag, as in the source. -/
structure QueryConstraints where
  filters : List WireFilter
  orderBy : List Order
  limit : Option Int
  limitToLast : Option Int
  offset : Option Int
  startAt : Option (List JSValue × Bool)
  endAt : Option (List JSValue × Bool)
  select : Option (List String)

/-- The constraint set a fresh `Query` starts from. -/
def emptyConstraints : QueryConstraints :=
  ⟨[], [], none, none, none, none, none, none⟩

/-- SDK order direction tokens. -/
inductive OrderByDirection where
  | asc
  | desc
deriving DecidableEq

/-- Embedding of `Query.where`: appends one field filter, with the value
encoded through the codec, and leaves every other constraint unchanged. -/
def queryWhere (q : QueryConstraints) (fieldPath : String)
    (opStr : WhereFilterOp) (value : JSValue) : QueryConstraints :=
  { q with filters := q.filters
      ++ [.fieldFilter ⟨fieldPath⟩ (getRestOperator opStr)
            (toFirestoreValue value)] }

/-- Embedding of `Query.orderBy`: appends one ordering clause (ascending
maps to `ASCENDING`, anything else to `DESCENDING`). -/
def queryOrderBy (q : QueryConstraints) (fieldPath : String)
    (directionStr : OrderByDirection) : QueryConstraints :=
  { q with orderBy := q.orderBy
      ++ [⟨⟨fieldPath⟩,
            if directionStr = .asc then .ascending else .descending⟩] }

/-- Embedding of `Query.limit`: rejects a negative count synchronously,
otherwise sets `limit` and clears `limitToLast`. -/
def queryLimit (q : QueryConstraints) (count : Int) :
    Except String QueryConstraints :=
  if count < 0 then .error "Limit must be non-negative"
  else .ok { q with limit := some count, limitToLast := none }

/-- Embedding of `Query.limitToLast`: rejects a negative count
synchronously, otherwise sets `limitToLast` and clears `limit`. -/
def queryLimitToLast (q : QueryConstraints) (count : Int) :
    Except String QueryConstraints :=
  if count < 0 then .error "Limit must be non-negative"
  else .ok { q with limitToLast := some count, limit := none }

/-- Embedding of `Query.offset`: rejects a negative count synchronously,
otherwise sets `offset`. -/
def queryOffset (q : QueryConstraints) (count : Int) :
    Except String QueryConstraints :=
  if count < 0 then .error "Offset must be non-negative"
  else .ok { q with offset := some count }

/-- Embedding of `Query.startAt` (inclusive: before is true). -/
def queryStartAt (q : QueryConstraints) (values : List JSValue) :
    QueryConstraints :=
  { q with startAt := some (values, true) }

/-- Embedding of `Query.startAfter` (exclusive: before is false). -/
def queryStartAfter (q : QueryConstraints) (values : List JSValue) :
    QueryConstraints :=
  { q with startAt := some (values, false) }

/-- Embedding of `Query.endAt` (inclusive: before is false). -/
def queryEndAt (q : QueryConstraints) (values : List JSValue) :
    QueryConstraints :=
  { q with endAt := some (values, false) }

/-- Embedding of `Query.endBefore` (exclusive: before is true). -/
def queryEndBefore (q : QueryConstraints) (values : List JSValue) :
    QueryConstraints :=
  { q with endAt := some (values, true) }

/-- Embedding of `Query.select`. -/
def querySelect (q : QueryConstraints) (fields : List String) :
    QueryConstraints :=
  { q with select := some fields }

/-- The wire structured query produced by `Query._toStructuredQuery` (the
`from` selector is attached later by the client and is not part of this
computation).  The `where` clause is named `whereFilter` because `where` is
reserved in Lean. -/
structure StructuredQuery where
  whereFilter : Option WireFilter
  orderBy : Option (List Order)
  limit : Option Int
  offset : Option Int
  startAt : Option Cursor
  endAt : Option Cursor
  select : Option Projection

/-- The per-clause direction reversal applied under `limitToLast`. -/
def reverseOrder (o : Order) : Order :=
  { o with direction :=
      if o.direction = .ascending then .descending else .ascending }

/-- Embedding of `Query._buildCursor`: encode the values through the codec
and keep the before flag. -/
def buildCursor (c : List JSValue × Bool) : Cursor :=
  ⟨c.1.map toFirestoreValue, c.2⟩

/-- Embedding of `Query._toStructuredQuery` from `query.ts`: one filter
compiles bare, two or more compile to a composite AND; the orderBy list is
emitted only when nonempty and is direction-reversed when `limitToLast` is
set; the wire limit is `limit ?? limitToLast`; the projection is emitted
only for a nonempty selection. -/
def toStructuredQuery (q : QueryConstraints) : StructuredQuery :=
  let whereFilter : Option WireFilter :=
    match q.filters with
    | [] => none
    | [f] => some f
    | fs => some (.compositeFilter .and fs)
  let orderBy : Option (List Order) :=
    if q.orderBy.isEmpty then none
    else if q.limitToLast.isSome then some (q.orderBy.map reverseOrder)
    else some q.orderBy
  let limit : Option Int :=
    match q.limit with
    | some l => some l
    | none => q.limitToLast
  { whereFilter := whereFilter
    orderBy := orderBy
    limit := limit
    offset := q.offset
    startAt := q.startAt.map buildCursor
    endAt := q.endAt.map buildCursor
    select :=
      match q.select with
      | some fs => if fs.isEmpty then none else some ⟨fs.map (⟨·⟩)⟩
      | none => none }

/-- A wire document, as far as the query executor consumes it. -/
structure FirestoreDocument where
  name : Option String
  fields : List (String × FirestoreValue)
  createTime : Option String
  updateTime : Option String

/-- One streamed `runQuery` response item; the executor consumes only the
optional document. -/
structure RunQueryResponseItem where
  document : Option FirestoreDocument
  readTime : Option String
  done : Option Bool

/-- The response post-processing of `Query.get`: collect the items that
carry a document, then reverse the list exactly when `limitToLast` is set
on the constraints, restoring the originally requested order. -/
def processQueryResults (q : QueryConstraints)
    (results : List RunQueryResponseItem) : List FirestoreDocument :=
  let documents := results.filterMap fun item => item.document
  if q.limitToLast.isSome then documents.reverse else documents

-- ===========================================================================
-- Transaction coordinator (`Firestore.runTransaction`)
-- ===========================================================================

/-- Substring search used to model `String.prototype.includes`. -/
def listIncludes (needle : List Char) : List Char → Bool
  | [] => needle.isEmpty
  | c :: rest => needle.isPrefixOf (c :: rest) || listIncludes needle rest

/-- String containment, as `String.prototype.includes` tests it. -/
def includesABORTED (msg : String) : Bool :=
  listIncludes "ABORTED".toList msg.toList

/-- The retry loop of `Firestore.runTransaction`, structurally recursive on
the number of remaining attempts (the source counts `attempt` upward to
`maxAttempts`; here `remaining = maxAttempts - attempt`).  One logical
attempt (begin a fresh transaction, run the callback against it with an
empty write buffer, commit the buffered writes) is abstracted as one effect
`attempts i`; the loop returns the first successful result, restarts on a
contention (`ABORTED`) failure while remembering it as the last error,
rethrows any other failure immediately, and after the attempt ceiling
surfaces the last error (or the generic message when no attempt ran).  The
source always begins the retry attempt with a fresh transaction token
(`retryTransaction` is reset to undefined) and a fresh `Transaction` write
buffer, which is why an attempt depends only on its index. -/
def runTransactionLoop (attempts : Nat → Except String α) :
    Nat → Nat → Option String → Except String α
  | 0, _, lastError =>
    .error (lastError.getD "Transaction failed after max attempts")
  | remaining + 1, attempt, lastError =>
    match attempts attempt with
    | .ok r => .ok r
    | .error msg =>
      if includesABORTED msg then
        runTransactionLoop attempts remaining (attempt + 1) (some msg)
      else .error msg

/-- The attempt ceiling used when the caller passes no option. -/
def defaultMaxAttempts : Nat := 5

/-- Embedding of `Firestore.runTransaction`:
`maxAttempts = options?.maxAttempts ?? 5`, then the retry loop from attempt
zero with no last error. -/
def runTransactionModel (attempts : Nat → Except String α)
    (maxAttemptsOpt : Option Nat) : Except String α :=
  runTransactionLoop attempts (maxAttemptsOpt.getD defaultMaxAttempts) 0 none

-- ===========================================================================
-- Helper lemmas for the claim theorems
-- ===========================================================================

theorem string_mk_toList (sd : List Char) : (String.mk sd).toList = sd := rfl

theorem quoteFieldPathSegment_not_simple (sd : List Char)
    (hb : isSimpleSegmentList sd = false) :
    quoteFieldPathSegment (String.mk sd)
      = String.mk (backtickChar :: escapeBothAtOnce sd ++ [backtickChar]) := by
  rw [quoteFieldPathSegment, string_mk_toList, quoteFieldPathSegmentList,
    if_neg (by simp [hb]), replaceBackticks_replaceBackslashes]

theorem isDeleteField_eq_fvDelete (v : JSValue) (h : isDeleteField v = true) :
    v = .fvDelete := by
  cases v <;> simp [isDeleteField] at h ⊢

theorem fieldValueToTransform_nondelete (v : JSValue) (fp : String)
    (h1 : isFieldValue v = true) (h2 : isDeleteField v = false) :
    ∃ op, fieldValueToTransform v fp = some ⟨fp, op⟩ := by
  cases v <;> simp_all [isFieldValue, isDeleteField, fieldValueToTransform]

theorem extractFieldTransforms_paths (data : List (String × JSValue))
    (pre : String) :
    (extractFieldTransforms data pre).map (fun t => t.fieldPath)
      = extractTransformFields data pre := by
  match data with
  | [] =>
    rw [extractFieldTransforms, extractTransformFields]
    rfl
  | (k, v) :: rest =>
    rw [extractFieldTransforms, extractTransformFields]
    simp only [List.map_append, extractFieldTransforms_paths rest pre]
    congr 1
    by_cases hfv : isFieldValue v = true
    · by_cases hdel : isDeleteField v = true
      · have hv := isDeleteField_eq_fvDelete v hdel
        subst hv
        rw [if_pos hfv, if_neg (by simp [isFieldValue, isDeleteField])]
        rw [show extractChildEntries JSValue.fvDelete
            = ([] : List (String × JSValue)) from rfl, extractTransformFields]
        rfl
      · have hdelF : isDeleteField v = false := by
          revert hdel
          cases isDeleteField v <;> simp
        obtain ⟨op, hop⟩ := fieldValueToTransform_nondelete v
          (joinPath pre (quotedKeyOf k)) hfv hdelF
        rw [if_pos hfv, hop, if_pos (by simp [hfv, hdelF])]
        rfl
    · have hb : isFieldValue v = false := by
        revert hfv
        cases isFieldValue v <;> simp
      rw [if_neg hfv, if_neg (by simp [hb])]
      exact extractFieldTransforms_paths (extractChildEntries v)
        (joinPath pre (quotedKeyOf k))
termination_by sizeOf data
decreasing_by
  · simp only [Prod.mk.sizeOf_spec, List.cons.sizeOf_spec]
    omega
  · have h := sizeOf_extractChildEntries v
    simp only [Prod.mk.sizeOf_spec, List.cons.sizeOf_spec]
    omega

theorem toFirestoreFields_filter (data : List (String × JSValue)) :
    toFirestoreFields data
      = (data.filter fun kv => !isFieldValue kv.2).map
          fun kv => (kv.1, toFirestoreValue kv.2) := by
  induction data with
  | nil => rfl
  | cons kv rest ih =>
    match kv with
    | (k, v) =>
      show toFirestoreMapEntries ((k, v) :: rest) = _
      rw [toFirestoreMapEntries]
      by_cases hfv : isFieldValue v = true
      · rw [if_pos hfv]
        simp only [List.filter_cons, hfv, Bool.not_true, List.map]
        exact ih
      · have hb : isFieldValue v = false := by
          revert hfv
          cases isFieldValue v <;> simp
        rw [if_neg hfv]
        simp only [List.filter_cons, hb, Bool.not_false, List.map]
        exact congrArg _ ih

theorem runTransactionLoop_skip {α : Type} (att : Nat → Except String α)
    (msgs : Nat → String) :
    ∀ (k remaining attempt : Nat) (le : Option String),
      k ≤ remaining →
      (∀ i, i < k → att (attempt + i) = .error (msgs (attempt + i))
        ∧ includesABORTED (msgs (attempt + i)) = true) →
      runTransactionLoop att remaining attempt le
        = runTransactionLoop att (remaining - k) (attempt + k)
            (if k = 0 then le else some (msgs (attempt + k - 1))) := by
  intro k
  induction k with
  | zero =>
    intro remaining attempt le h1 h2
    simp
  | succ k ih =>
    intro remaining attempt le h1 h2
    cases remaining with
    | zero => omega
    | succ rem =>
      have hstep := h2 0 (by omega)
      rw [show attempt + 0 = attempt from rfl] at hstep
      rw [runTransactionLoop, hstep.1]
      show (if includesABORTED (msgs attempt) = true then
          runTransactionLoop att rem (attempt + 1) (some (msgs attempt))
        else .error (msgs attempt)) = _
      rw [if_pos hstep.2]
      rw [ih rem (attempt + 1) (some (msgs attempt)) (by omega)
        (fun i hi => by
          have hx := h2 (i + 1) (by omega)
          rwa [show attempt + (i + 1) = attempt + 1 + i from by omega] at hx)]
      rw [show rem + 1 - (k + 1) = rem - k from by omega,
        show attempt + (k + 1) = attempt + 1 + k from by omega,
        if_neg (show ¬(k + 1 = 0) from by omega)]
      by_cases hk : k = 0
      · subst hk
        simp
      · rw [if_neg hk]

-- ===========================================================================
-- Claim theorems
-- ===========================================================================

/-- C1: for every native value in the supported domain (null, bool, number,
string, byte buffer, date, geopoint, list, plain map), decoding the encoding
returns the original value; and `undefined` encodes to the same wire form as
`null` (`nullValue`) and therefore decodes back as `null`. -/
theorem claim1_codec_roundtrip :
    (∀ v : JSValue, supportedValue v = true →
      fromFirestoreValue (toFirestoreValue v) = .ok v)
    ∧ toFirestoreValue .undef = toFirestoreValue .null
    ∧ fromFirestoreValue (toFirestoreValue .undef) = .ok .null :=
  ⟨fun v h => fromTo_value v h, rfl, rfl⟩

theorem claim1_codec_roundtrip_witness :
    supportedValue (.map [("name", .str "A"),
      ("age", .num 30), ("tags", .arr [.bool true, .null])]) = true
    ∧ fromFirestoreValue (toFirestoreValue (.map [("name", .str "A"),
        ("age", .num 30), ("tags", .arr [.bool true, .null])]))
      = .ok (.map [("name", .str "A"),
        ("age", .num 30), ("tags", .arr [.bool true, .null])]) :=
  ⟨by decide, claim1_codec_roundtrip.1 _ (by decide)⟩

/-- C2: `quoteFieldPathSegment(s)` equals `s` exactly when `s` matches the
simple identifier regular expression; otherwise the result is `s` wrapped in
backticks with backslashes and backticks escaped, where the sequential
escaping (backslashes first, then backticks) coincides with a single
simultaneous pass, so backslashes introduced by the escaping are never
escaped again. -/
theorem claim2_quoteFieldPathSegment :
    (∀ s : String, (quoteFieldPathSegment s = s ↔ isSimpleSegment s = true))
    ∧ (∀ s : String, isSimpleSegment s = false →
        quoteFieldPathSegment s
          = String.mk (backtickChar :: escapeBothAtOnce s.toList
              ++ [backtickChar])) := by
  constructor
  · intro s
    obtain ⟨sd⟩ := s
    constructor
    · intro hEq
      by_contra hns
      have hb : isSimpleSegmentList sd = false := by
        revert hns
        unfold isSimpleSegment
        rw [string_mk_toList]
        cases isSimpleSegmentList sd <;> simp
      rw [quoteFieldPathSegment_not_simple sd hb] at hEq
      have hdata : backtickChar :: escapeBothAtOnce sd ++ [backtickChar]
          = sd := by
        have := congrArg String.data hEq
        simpa using this
      have hlen := congrArg List.length hdata
      have h1 := length_replaceBackslashes sd
      have h2 := length_replaceBackticks (replaceBackslashes sd)
      rw [replaceBackticks_replaceBackslashes] at h2
      simp only [List.length_cons, List.length_append, List.length_nil] at hlen
      omega
    · intro hsimp
      rw [quoteFieldPathSegment, string_mk_toList, quoteFieldPathSegmentList,
        if_pos (by simpa [isSimpleSegment] using hsimp)]
  · intro s hns
    obtain ⟨sd⟩ := s
    have hb : isSimpleSegmentList sd = false := by
      simpa [isSimpleSegment] using hns
    rw [quoteFieldPathSegment_not_simple sd hb, string_mk_toList]

theorem claim2_quoteFieldPathSegment_witness :
    isSimpleSegment "item-001" = false
    ∧ quoteFieldPathSegment "item-001"
      = String.mk (backtickChar :: escapeBothAtOnce "item-001".toList
          ++ [backtickChar]) :=
  ⟨by decide, claim2_quoteFieldPathSegment.2 "item-001" (by decide)⟩

/-- C3: the transform list has one entry per non-Delete sentinel leaf, at
the same quoted paths that `extractTransformFields` enumerates;
`ServerTimestamp` maps to set-to-server-time, `Increment` to a numeric
increment by the encoded amount, `ArrayUnion`/`ArrayRemove` to
append-missing/remove-all with the encoded elements; `Delete` produces no
transform entry; sentinel-valued entries are erased from the plain-field
output; and the payload with a single `Increment(5)` yields exactly one
increment-by-5 transform and an empty plain-field map. -/
theorem claim3_transforms :
    (∀ (data : List (String × JSValue)) (pre : String),
      (extractFieldTransforms data pre).map (fun t => t.fieldPath)
        = extractTransformFields data pre)
    ∧ (∀ p, fieldValueToTransform .fvServerTimestamp p
        = some ⟨p, .setToServerValue⟩)
    ∧ (∀ p n, fieldValueToTransform (.fvIncrement n) p
        = some ⟨p, .increment (toFirestoreValue (.num n))⟩)
    ∧ (∀ p xs, fieldValueToTransform (.fvArrayUnion xs) p
        = some ⟨p, .appendMissingElements (toFirestoreValueList xs)⟩)
    ∧ (∀ p xs, fieldValueToTransform (.fvArrayRemove xs) p
        = some ⟨p, .removeAllFromArray (toFirestoreValueList xs)⟩)
    ∧ (∀ p, fieldValueToTransform .fvDelete p = none)
    ∧ (∀ data : List (String × JSValue), toFirestoreFields data
        = (data.filter fun kv => !isFieldValue kv.2).map
            fun kv => (kv.1, toFirestoreValue kv.2))
    ∧ extractFieldTransforms [("count", .fvIncrement 5)] ""
        = [⟨"count", .increment (.integerValue "5")⟩]
    ∧ toFirestoreFields [("count", .fvIncrement 5)] = [] :=
  ⟨extractFieldTransforms_paths,
   fun _ => rfl, fun _ _ => rfl, fun _ _ => rfl, fun _ _ => rfl, fun _ => rfl,
   toFirestoreFields_filter,
   by
     rw [extractFieldTransforms, extractFieldTransforms]
     rfl,
   rfl⟩

/-- C6: with at least one orderBy clause and a nonnegative count,
`limitToLast` succeeds and compiles to a wire query whose every orderBy
direction is reversed and whose limit is the count, and executing the query
reverses the returned document list; in particular
`orderBy("createdAt","asc").limitToLast(5)` compiles to direction
`DESCENDING` with limit 5. -/
theorem claim6_limitToLast :
    (∀ (q : QueryConstraints) (n : Int), 0 ≤ n → q.orderBy ≠ [] →
      queryLimitToLast q n
          = .ok { q with limitToLast := some n, limit := none }
      ∧ (toStructuredQuery { q with limitToLast := some n, limit := none }).orderBy
          = some (q.orderBy.map reverseOrder)
      ∧ (toStructuredQuery { q with limitToLast := some n, limit := none }).limit
          = some n
      ∧ ∀ results,
          processQueryResults { q with limitToLast := some n, limit := none }
            results
          = (results.filterMap fun item => item.document).reverse)
    ∧ (toStructuredQuery { queryOrderBy emptyConstraints "createdAt" .asc with
          limitToLast := some 5, limit := none }).orderBy
        = some [⟨⟨"createdAt"⟩, .descending⟩]
    ∧ (toStructuredQuery { queryOrderBy emptyConstraints "createdAt" .asc with
          limitToLast := some 5, limit := none }).limit = some 5 := by
  refine ⟨?_, rfl, rfl⟩
  intro q n h0 hOB
  refine ⟨by rw [queryLimitToLast, if_neg (by omega)], ?_, ?_, ?_⟩
  · simp only [toStructuredQuery]
    rw [if_neg (by simpa [List.isEmpty_iff] using hOB), if_pos (by simp)]
  · simp only [toStructuredQuery]
  · intro results
    simp only [processQueryResults]
    rw [if_pos (by simp)]

theorem claim6_limitToLast_witness :
    (toStructuredQuery { queryOrderBy emptyConstraints "createdAt" .asc with
        limitToLast := some 5, limit := none }).orderBy
      = some ((queryOrderBy emptyConstraints "createdAt" .asc).orderBy.map
          reverseOrder) :=
  (claim6_limitToLast.1 (queryOrderBy emptyConstraints "createdAt" .asc) 5
    (by decide) (by simp [queryOrderBy, emptyConstraints])).2.1

/-- C7: each of `limit`, `limitToLast` and `offset` rejects a negative count
synchronously with the invalid-argument error; in the pure embedding the
builder returns only the error, so no new query is produced and the receiver
is untouched (no network request is modelled anywhere in the builders). -/
theorem claim7_negative_counts :
    ∀ (q : QueryConstraints) (n : Int), n < 0 →
      queryLimit q n = .error "Limit must be non-negative"
      ∧ queryLimitToLast q n = .error "Limit must be non-negative"
      ∧ queryOffset q n = .error "Offset must be non-negative" := by
  intro q n h
  exact ⟨by rw [queryLimit, if_pos h], by rw [queryLimitToLast, if_pos h],
    by rw [queryOffset, if_pos h]⟩

theorem claim7_negative_counts_witness :
    queryLimit emptyConstraints (-1) = .error "Limit must be non-negative"
    ∧ queryLimitToLast emptyConstraints (-1)
        = .error "Limit must be non-negative"
    ∧ queryOffset emptyConstraints (-1)
        = .error "Offset must be non-negative" :=
  claim7_negative_counts emptyConstraints (-1) (by decide)

/-- C8: every builder method returns a new constraint record equal to the
receiver with only its own component changed (appended filter, appended
ordering, the set count, the set cursor, the set projection); the receiver
itself is a pure value and is never mutated, so a query can be reused and
extended in several directions. -/
theorem claim8_builder_frame :
    ∀ (q : QueryConstraints) (f : String) (op : WhereFilterOp) (v : JSValue)
      (dir : OrderByDirection) (n : Int) (vs : List JSValue)
      (fs : List String), 0 ≤ n →
      queryWhere q f op v
          = { q with filters := q.filters
              ++ [.fieldFilter ⟨f⟩ (getRestOperator op) (toFirestoreValue v)] }
      ∧ queryOrderBy q f dir
          = { q with orderBy := q.orderBy
              ++ [⟨⟨f⟩, if dir = .asc then .ascending else .descending⟩] }
      ∧ queryLimit q n = .ok { q with limit := some n, limitToLast := none }
      ∧ queryLimitToLast q n
          = .ok { q with limitToLast := some n, limit := none }
      ∧ queryOffset q n = .ok { q with offset := some n }
      ∧ queryStartAt q vs = { q with startAt := some (vs, true) }
      ∧ queryStartAfter q vs = { q with startAt := some (vs, false) }
      ∧ queryEndAt q vs = { q with endAt := some (vs, false) }
      ∧ queryEndBefore q vs = { q with endAt := some (vs, true) }
      ∧ querySelect q fs = { q with select := some fs } := by
  intro q f op v dir n vs fs hn
  refine ⟨rfl, rfl, ?_, ?_, ?_, rfl, rfl, rfl, rfl, rfl⟩
  · rw [queryLimit, if_neg (by omega)]
  · rw [queryLimitToLast, if_neg (by omega)]
  · rw [queryOffset, if_neg (by omega)]

theorem claim8_builder_frame_witness :
    queryLimit emptyConstraints 3
      = .ok { emptyConstraints with limit := some 3, limitToLast := none } :=
  (claim8_builder_frame emptyConstraints "f" .eq .null .asc 3 [] []
    (by decide)).2.2.1

/-- C9: `runTransaction` defaults its attempt ceiling to 5; it returns the
callback result of the first attempt whose commit succeeds; an attempt
failing with a message containing `ABORTED` is retried from a fresh
`beginTransaction` (each attempt is independent, with a fresh write buffer
and token); once the ceiling is exhausted the last contention error
surfaces; and a failure without `ABORTED` in its message propagates
immediately without further attempts. -/
theorem claim9_runTransaction {α : Type} :
    (∀ att : Nat → Except String α,
      runTransactionModel att none = runTransactionModel att (some 5))
    ∧ (∀ (att : Nat → Except String α) (msgs : Nat → String)
        (maxA k : Nat) (r : α),
        (∀ i, i < k →
          att i = .error (msgs i) ∧ includesABORTED (msgs i) = true) →
        att k = .ok r → k < maxA →
        runTransactionModel att (some maxA) = .ok r)
    ∧ (∀ (att : Nat → Except String α) (msgs : Nat → String) (maxA : Nat),
        (∀ i, i < maxA →
          att i = .error (msgs i) ∧ includesABORTED (msgs i) = true) →
        1 ≤ maxA →
        runTransactionModel att (some maxA) = .error (msgs (maxA - 1)))
    ∧ (∀ (att : Nat → Except String α) (msgs : Nat → String)
        (maxA k : Nat) (m : String),
        (∀ i, i < k →
          att i = .error (msgs i) ∧ includesABORTED (msgs i) = true) →
        att k = .error m → includesABORTED m = false → k < maxA →
        runTransactionModel att (some maxA) = .error m) := by
  refine ⟨fun att => rfl, ?_, ?_, ?_⟩
  · intro att msgs maxA k r h1 h2 h3
    show runTransactionLoop att maxA 0 none = .ok r
    rw [runTransactionLoop_skip att msgs k maxA 0 none (by omega)
      (fun i hi => by simpa using h1 i hi)]
    simp only [Nat.zero_add]
    obtain ⟨rem, hrem⟩ : ∃ rem, maxA - k = rem + 1 := ⟨maxA - k - 1, by omega⟩
    rw [hrem, runTransactionLoop, h2]
  · intro att msgs maxA h1 h2
    show runTransactionLoop att maxA 0 none = _
    rw [runTransactionLoop_skip att msgs maxA maxA 0 none (by omega)
      (fun i hi => by simpa using h1 i hi)]
    simp only [Nat.zero_add, Nat.sub_self]
    rw [if_neg (by omega)]
    rfl
  · intro att msgs maxA k m h1 h2 h3 h4
    show runTransactionLoop att maxA 0 none = .error m
    rw [runTransactionLoop_skip att msgs k maxA 0 none (by omega)
      (fun i hi => by simpa using h1 i hi)]
    simp only [Nat.zero_add]
    obtain ⟨rem, hrem⟩ : ∃ rem, maxA - k = rem + 1 := ⟨maxA - k - 1, by omega⟩
    rw [hrem, runTransactionLoop, h2]
    show (if includesABORTED m = true then
        runTransactionLoop att rem (k + 1) (some m)
      else .error m) = _
    rw [if_neg (by simp [h3])]

theorem claim9_runTransaction_witness :
    runTransactionModel
      (fun i => if i = 0 then (.error "10 ABORTED: conflict" : Except String Nat)
                else .ok 7) (some 5) = .ok 7 :=
  claim9_runTransaction.2.1
    (fun i => if i = 0 then .error "10 ABORTED: conflict" else .ok 7)
    (fun _ => "10 ABORTED: conflict") 5 1 7
    (fun i hi => by
      have hz : i = 0 := by omega
      subst hz
      exact ⟨rfl, rfl⟩)
    rfl (by omega)

/-- C10: `limitToLast` without any orderBy clause does not fail: for a
nonnegative count it succeeds, the compiled wire query carries no orderBy
field at all and limit equal to the count, and execution still reverses the
returned document list, so it behaves as a plain limit with reversed
response order. -/
theorem claim10_limitToLast_no_orderBy :
    ∀ (q : QueryConstraints) (n : Int), 0 ≤ n → q.orderBy = [] →
      queryLimitToLast q n
          = .ok { q with limitToLast := some n, limit := none }
      ∧ (toStructuredQuery { q with limitToLast := some n, limit := none }).orderBy
          = none
      ∧ (toStructuredQuery { q with limitToLast := some n, limit := none }).limit
          = some n
      ∧ ∀ results,
          processQueryResults { q with limitToLast := some n, limit := none }
            results
          = (results.filterMap fun item => item.document).reverse := by
  intro q n h0 hOB
  refine ⟨by rw [queryLimitToLast, if_neg (by omega)], ?_, ?_, ?_⟩
  · simp only [toStructuredQuery]
    rw [if_pos (by simp [hOB])]
  · simp only [toStructuredQuery]
  · intro results
    simp only [processQueryResults]
    rw [if_pos (by simp)]

theorem claim10_limitToLast_no_orderBy_witness :
    queryLimitToLast emptyConstraints 5
      = .ok { emptyConstraints with limitToLast := some 5, limit := none }
    ∧ (toStructuredQuery { emptyConstraints with
        limitToLast := some 5, limit := none }).orderBy = none :=
  ⟨(claim10_limitToLast_no_orderBy emptyConstraints 5 (by decide) rfl).1,
   (claim10_limitToLast_no_orderBy emptyConstraints 5 (by decide) rfl).2.1⟩

-- ===========================================================================
-- Flat dotted keys versus nested maps (claim C5)
-- ===========================================================================

/-- The nested-map form of a multi-segment field: `{k: {s1: {... : v}}}`. -/
def nestedChain (k : String) (segs : List String) (v : JSValue) :
    List (String × JSValue) :=
  match segs with
  | [] => [(k, v)]
  | s :: rest => [(k, .map (nestedChain s rest v))]

/-- The flat dotted-key form of the same field: `"k.s1..."`. -/
def dotJoined (k : String) (segs : List String) : String :=
  match segs with
  | [] => k
  | s :: rest => k ++ "." ++ dotJoined s rest

/-- The quoted path reached by descending the nested chain: each segment is
quoted individually and joined onto the growing prefix. -/
def chainPath (pre : String) (k : String) (segs : List String) : String :=
  match segs with
  | [] => joinPath pre (quoteFieldPathSegment k)
  | s :: rest => chainPath (joinPath pre (quoteFieldPathSegment k)) s rest

theorem contains_dot_false {l : List Char} (h : ('.' : Char) ∉ l) :
    l.contains '.' = false := by
  cases hc : l.contains '.'
  · rfl
  · exact absurd (List.mem_of_elem_eq_true hc) h

theorem splitOnDots_no_dot (a : List Char) (ha : ('.' : Char) ∉ a) :
    splitOnDots a = [a] := by
  induction a with
  | nil => rfl
  | cons c rest ih =>
    have hc : c ≠ '.' := fun hEq => ha (hEq ▸ List.mem_cons_self c rest)
    have hrest : ('.' : Char) ∉ rest := fun hm => ha (List.mem_cons_of_mem c hm)
    rw [splitOnDots]
    simp only [if_neg hc, ih hrest]
    rfl

theorem splitOnDots_ne_nil (b : List Char) : splitOnDots b ≠ [] := by
  cases b with
  | nil => simp [splitOnDots]
  | cons c rest =>
    rw [splitOnDots]
    by_cases hc : c = '.'
    · simp [hc]
    · simp [hc]

theorem splitOnDots_append_dot (a : List Char) (ha : ('.' : Char) ∉ a)
    (b : List Char) :
    splitOnDots (a ++ '.' :: b) = a :: splitOnDots b := by
  induction a with
  | nil =>
    rw [List.nil_append, splitOnDots, if_pos rfl]
  | cons c rest ih =>
    have hc : c ≠ '.' := fun hEq => ha (hEq ▸ List.mem_cons_self c rest)
    have hrest : ('.' : Char) ∉ rest := fun hm => ha (List.mem_cons_of_mem c hm)
    rw [List.cons_append, splitOnDots]
    simp only [if_neg hc, ih hrest]
    rfl

theorem quoteFieldPathList_no_dot (a : List Char) (ha : ('.' : Char) ∉ a) :
    quoteFieldPathList a = quoteFieldPathSegmentList a := by
  rw [quoteFieldPathList, splitOnDots_no_dot a ha]
  simp [List.intersperse]

theorem quoteFieldPathList_append_dot (a b : List Char)
    (ha : ('.' : Char) ∉ a) :
    quoteFieldPathList (a ++ '.' :: b)
      = quoteFieldPathSegmentList a ++ '.' :: quoteFieldPathList b := by
  rw [quoteFieldPathList, splitOnDots_append_dot a ha b]
  obtain ⟨x, L, hxL⟩ : ∃ x L, splitOnDots b = x :: L := by
    cases hb : splitOnDots b with
    | nil => exact absurd hb (splitOnDots_ne_nil b)
    | cons x L => exact ⟨x, L, rfl⟩
  rw [hxL]
  simp only [List.map_cons, List.intersperse]
  rw [quoteFieldPathList, hxL]
  simp [List.intersperse, List.flatten]

/-- The per-segment-quoted dotted path, without a prefix: what the spec says
both input forms must produce. -/
def chainQ (k : String) (segs : List String) : String :=
  match segs with
  | [] => quoteFieldPathSegment k
  | s :: rest => quoteFieldPathSegment k ++ "." ++ chainQ s rest

theorem string_append_dot_ne_empty (a b : String) : a ++ "." ++ b ≠ "" := by
  intro h
  have h2 : (a ++ "." ++ b).toList = ("" : String).toList := congrArg String.toList h
  have h3 : (a ++ "." ++ b).toList = a.toList ++ '.' :: b.toList := by
    show a.toList ++ ".".toList ++ b.toList = _
    simp
  rw [h3] at h2
  simp at h2

theorem quoteFieldPathSegmentList_ne_nil (l : List Char) :
    quoteFieldPathSegmentList l ≠ [] := by
  rw [quoteFieldPathSegmentList]
  by_cases h : isSimpleSegmentList l
  · rw [if_pos h]
    cases l with
    | nil => exact absurd h (by simp [isSimpleSegmentList])
    | cons c rest => simp
  · rw [if_neg h]
    simp

theorem quoteFieldPathSegment_ne_empty (s : String) :
    quoteFieldPathSegment s ≠ "" := by
  intro h
  have h2 := congrArg String.toList h
  rw [quoteFieldPathSegment, string_mk_toList] at h2
  exact quoteFieldPathSegmentList_ne_nil s.toList h2

theorem quotedKeyOf_no_dot (k : String) (hk : ('.' : Char) ∉ k.toList) :
    quotedKeyOf k = quoteFieldPathSegment k := by
  rw [quotedKeyOf, if_neg]
  intro hc
  exact hk (List.mem_of_elem_eq_true hc)

theorem joinPath_empty (q : String) : joinPath "" q = q := rfl

theorem joinPath_join (pre q1 q2 : String) (hq1 : q1 ≠ "") :
    joinPath (joinPath pre q1) q2 = joinPath pre (q1 ++ "." ++ q2) := by
  by_cases hpre : pre = ""
  · subst hpre
    rw [joinPath_empty, joinPath_empty, joinPath, if_neg hq1]
  · have hinner : joinPath pre q1 = pre ++ "." ++ q1 := by
      rw [joinPath, if_neg hpre]
    rw [hinner, joinPath, if_neg (string_append_dot_ne_empty pre q1),
      joinPath, if_neg hpre]
    simp [String.append_assoc]

theorem chainPath_eq (segs : List String) :
    ∀ k pre, chainPath pre k segs = joinPath pre (chainQ k segs) := by
  induction segs with
  | nil => intro k pre; rfl
  | cons s rest ih =>
    intro k pre
    show chainPath (joinPath pre (quoteFieldPathSegment k)) s rest = _
    rw [ih s (joinPath pre (quoteFieldPathSegment k)),
      joinPath_join pre _ _ (quoteFieldPathSegment_ne_empty k)]
    rfl

theorem quoteFieldPath_no_dot (k : String) (hk : ('.' : Char) ∉ k.toList) :
    quoteFieldPath k = quoteFieldPathSegment k := by
  rw [quoteFieldPath, quoteFieldPathList_no_dot _ hk]
  rfl

theorem dotJoined_toList (k s : String) (rest : List String) :
    (dotJoined k (s :: rest)).toList
      = k.toList ++ '.' :: (dotJoined s rest).toList := by
  show (k ++ "." ++ dotJoined s rest).toList = _
  show k.toList ++ ".".toList ++ (dotJoined s rest).toList = _
  simp

theorem string_mk_append_dot (a b : List Char) :
    String.mk (a ++ '.' :: b) = String.mk a ++ "." ++ String.mk b := by
  have h : String.mk a ++ "." ++ String.mk b = String.mk ((a ++ ['.']) ++ b) := rfl
  rw [h, List.append_assoc]
  rfl

theorem quoteFieldPath_dotJoined (segs : List String) :
    ∀ k, ('.' : Char) ∉ k.toList → (∀ s ∈ segs, ('.' : Char) ∉ s.toList) →
      quoteFieldPath (dotJoined k segs) = chainQ k segs := by
  induction segs with
  | nil =>
    intro k hk _
    exact quoteFieldPath_no_dot k hk
  | cons s rest ih =>
    intro k hk hs
    rw [quoteFieldPath, dotJoined_toList k s rest,
      quoteFieldPathList_append_dot _ _ hk, string_mk_append_dot]
    have h2 : chainQ k (s :: rest) = quoteFieldPathSegment k ++ "." ++ chainQ s rest := rfl
    rw [h2, ← ih s (hs s (List.mem_cons_self s rest))
      (fun t ht => hs t (List.mem_cons_of_mem s ht))]
    rfl

theorem quotedKeyOf_dotJoined (segs : List String) (k : String)
    (hk : ('.' : Char) ∉ k.toList) (hs : ∀ s ∈ segs, ('.' : Char) ∉ s.toList) :
    quotedKeyOf (dotJoined k segs) = chainQ k segs := by
  cases segs with
  | nil => exact quotedKeyOf_no_dot k hk
  | cons s rest =>
    rw [quotedKeyOf, if_pos]
    · exact quoteFieldPath_dotJoined (s :: rest) k hk hs
    · rw [dotJoined_toList k s rest]
      exact List.elem_eq_true_of_mem (by simp)

theorem extractDeleteFields_nestedChain (segs : List String) :
    ∀ k v pre, ('.' : Char) ∉ k.toList →
      (∀ s ∈ segs, ('.' : Char) ∉ s.toList) →
      extractDeleteFields (nestedChain k segs v) pre
        = (if isFieldValue v && isDeleteField v then [chainPath pre k segs]
           else extractDeleteFields (extractChildEntries v) (chainPath pre k segs)) := by
  induction segs with
  | nil =>
    intro k v pre hk _
    show extractDeleteFields [(k, v)] pre = _
    rw [extractDeleteFields]
    rw [extractDeleteFields]
    simp only [List.append_nil]
    rw [quotedKeyOf_no_dot k hk]
    rfl
  | cons s rest ih =>
    intro k v pre hk hs
    show extractDeleteFields [(k, JSValue.map (nestedChain s rest v))] pre = _
    rw [extractDeleteFields]
    rw [extractDeleteFields]
    simp only [List.append_nil]
    rw [quotedKeyOf_no_dot k hk]
    rw [if_neg (by simp [isFieldValue])]
    rw [show extractChildEntries (JSValue.map (nestedChain s rest v))
        = nestedChain s rest v from rfl]
    rw [ih s v (joinPath pre (quoteFieldPathSegment k))
      (hs s (List.mem_cons_self s rest))
      (fun t ht => hs t (List.mem_cons_of_mem s ht))]
    rfl

theorem extractDeleteFields_flatKey (segs : List String) (k : String)
    (v : JSValue) (pre : String) (hk : ('.' : Char) ∉ k.toList)
    (hs : ∀ s ∈ segs, ('.' : Char) ∉ s.toList) :
    extractDeleteFields [(dotJoined k segs, v)] pre
      = (if isFieldValue v && isDeleteField v then [chainPath pre k segs]
         else extractDeleteFields (extractChildEntries v) (chainPath pre k segs)) := by
  rw [extractDeleteFields]
  rw [extractDeleteFields]
  simp only [List.append_nil]
  rw [quotedKeyOf_dotJoined segs k hk hs, ← chainPath_eq segs k pre]

theorem extractFieldTransforms_nestedChain (segs : List String) :
    ∀ k v pre, ('.' : Char) ∉ k.toList →
      (∀ s ∈ segs, ('.' : Char) ∉ s.toList) →
      extractFieldTransforms (nestedChain k segs v) pre
        = (if isFieldValue v then (fieldValueToTransform v (chainPath pre k segs)).toList
           else extractFieldTransforms (extractChildEntries v) (chainPath pre k segs)) := by
  induction segs with
  | nil =>
    intro k v pre hk _
    show extractFieldTransforms [(k, v)] pre = _
    rw [extractFieldTransforms]
    rw [extractFieldTransforms]
    simp only [List.append_nil]
    rw [quotedKeyOf_no_dot k hk]
    rfl
  | cons s rest ih =>
    intro k v pre hk hs
    show extractFieldTransforms [(k, JSValue.map (nestedChain s rest v))] pre = _
    rw [extractFieldTransforms]
    rw [extractFieldTransforms]
    simp only [List.append_nil]
    rw [quotedKeyOf_no_dot k hk]
    rw [if_neg (by simp [isFieldValue])]
    rw [show extractChildEntries (JSValue.map (nestedChain s rest v))
        = nestedChain s rest v from rfl]
    rw [ih s v (joinPath pre (quoteFieldPathSegment k))
      (hs s (List.mem_cons_self s rest))
      (fun t ht => hs t (List.mem_cons_of_mem s ht))]
    rfl

theorem extractFieldTransforms_flatKey (segs : List String) (k : String)
    (v : JSValue) (pre : String) (hk : ('.' : Char) ∉ k.toList)
    (hs : ∀ s ∈ segs, ('.' : Char) ∉ s.toList) :
    extractFieldTransforms [(dotJoined k segs, v)] pre
      = (if isFieldValue v then (fieldValueToTransform v (chainPath pre k segs)).toList
         else extractFieldTransforms (extractChildEntries v) (chainPath pre k segs)) := by
  rw [extractFieldTransforms]
  rw [extractFieldTransforms]
  simp only [List.append_nil]
  rw [quotedKeyOf_dotJoined segs k hk hs, ← chainPath_eq segs k pre]

theorem singleton_entries_not_geo (s : String) (w : JSValue) :
    ((([(s, w)] : List (String × JSValue)).any fun kv => kv.1 == "latitude")
      && (([(s, w)] : List (String × JSValue)).any fun kv => kv.1 == "longitude"))
      = false := by
  by_cases h : s = "latitude"
  · subst h
    simp [List.any]
  · simp [List.any, h]

theorem getFieldPathsEntries_singleton_map (s : String) (w : JSValue) :
    getFieldPathsEntries (JSValue.map [(s, w)]) = some [(s, w)] := by
  rw [getFieldPathsEntries]
  rw [if_neg (by simp)]
  rw [if_neg (by rw [singleton_entries_not_geo s w]; simp)]

theorem nestedChain_singleton (s : String) (rest : List String) (v : JSValue) :
    ∃ w, nestedChain s rest v = [(s, w)] := by
  cases rest with
  | nil => exact ⟨v, rfl⟩
  | cons r t => exact ⟨JSValue.map (nestedChain r t v), rfl⟩

theorem getFieldPaths_nestedChain (segs : List String) :
    ∀ k v pre, ('.' : Char) ∉ k.toList →
      (∀ s ∈ segs, ('.' : Char) ∉ s.toList) →
      getFieldPathsEntries v = none →
      getFieldPaths (nestedChain k segs v) pre = [chainPath pre k segs] := by
  induction segs with
  | nil =>
    intro k v pre hk _ hleaf
    show getFieldPaths [(k, v)] pre = _
    rw [getFieldPaths]
    rw [getFieldPaths]
    simp only [List.append_nil]
    rw [if_neg (fun hc => hk (List.mem_of_elem_eq_true hc))]
    split
    · next es heq => rw [hleaf] at heq; exact absurd heq (by simp)
    · rfl
  | cons s rest ih =>
    intro k v pre hk hs hleaf
    show getFieldPaths [(k, JSValue.map (nestedChain s rest v))] pre = _
    rw [getFieldPaths]
    rw [getFieldPaths]
    simp only [List.append_nil]
    rw [if_neg (fun hc => hk (List.mem_of_elem_eq_true hc))]
    obtain ⟨w, hw⟩ := nestedChain_singleton s rest v
    split
    · next es heq =>
      rw [hw, getFieldPathsEntries_singleton_map s w] at heq
      have hes : es = [(s, w)] := by simpa using heq.symm
      subst hes
      rw [← hw]
      rw [ih s v (joinPath pre (quoteFieldPathSegment k))
        (hs s (List.mem_cons_self s rest))
        (fun t ht => hs t (List.mem_cons_of_mem s ht)) hleaf]
      rfl
    · next heq =>
      rw [hw, getFieldPathsEntries_singleton_map s w] at heq
      exact absurd heq (by simp)

theorem getFieldPaths_flatKey (segs : List String) (k : String) (v : JSValue)
    (hk : ('.' : Char) ∉ k.toList)
    (hs : ∀ s ∈ segs, ('.' : Char) ∉ s.toList)
    (hleaf : getFieldPathsEntries v = none) :
    getFieldPaths [(dotJoined k segs, v)] "" = [chainPath "" k segs] := by
  cases segs with
  | nil =>
    show getFieldPaths [(k, v)] "" = _
    rw [getFieldPaths]
    rw [getFieldPaths]
    simp only [List.append_nil]
    rw [if_neg (fun hc => hk (List.mem_of_elem_eq_true hc))]
    split
    · next es heq => rw [hleaf] at heq; exact absurd heq (by simp)
    · rfl
  | cons s rest =>
    rw [getFieldPaths]
    rw [getFieldPaths]
    simp only [List.append_nil]
    rw [if_pos]
    · rw [quoteFieldPath_dotJoined (s :: rest) k hk hs,
        chainPath_eq (s :: rest) k "", joinPath_empty]
    · rw [dotJoined_toList k s rest]
      exact List.elem_eq_true_of_mem (by simp)

/-- C5: for a dot-free field name followed by dot-free segments and any
value, the flat dotted string key and the actually nested map produce the
same delete-path artifact and the same field-transform artifact at every
prefix; the plain-field-path artifact (`getFieldPaths`) agrees at the top
level exactly when the value is a leaf for the `getFieldPaths` recursion
guard (the amendment: for a recursable value — a nonempty plain map, a
`Timestamp`, a nonempty `Uint8Array` — the nested form descends into the
value while the flat dotted key is pushed whole, so the two forms
disagree, as the counterexample shows). -/
theorem claim5_flat_vs_nested (k : String) (segs : List String) (v : JSValue)
    (pre : String) (hk : ('.' : Char) ∉ k.toList)
    (hs : ∀ s ∈ segs, ('.' : Char) ∉ s.toList) :
    extractDeleteFields [(dotJoined k segs, v)] pre
      = extractDeleteFields (nestedChain k segs v) pre
    ∧ extractFieldTransforms [(dotJoined k segs, v)] pre
      = extractFieldTransforms (nestedChain k segs v) pre
    ∧ (getFieldPathsEntries v = none →
        getFieldPaths [(dotJoined k segs, v)] ""
          = getFieldPaths (nestedChain k segs v) "") :=
  ⟨(extractDeleteFields_flatKey segs k v pre hk hs).trans
      (extractDeleteFields_nestedChain segs k v pre hk hs).symm,
   (extractFieldTransforms_flatKey segs k v pre hk hs).trans
      (extractFieldTransforms_nestedChain segs k v pre hk hs).symm,
   fun hleaf => (getFieldPaths_flatKey segs k v hk hs hleaf).trans
      (getFieldPaths_nestedChain segs k v "" hk hs hleaf).symm⟩

/-- Witness for C5 at `k = "user"`, `segs = ["age"]`, `v = FieldValue.delete`,
`pre = ""`. -/
theorem claim5_flat_vs_nested_witness :
    (('.' : Char) ∉ "user".toList)
    ∧ (∀ s ∈ (["age"] : List String), ('.' : Char) ∉ s.toList)
    ∧ (extractDeleteFields [(dotJoined "user" ["age"], JSValue.fvDelete)] ""
        = extractDeleteFields (nestedChain "user" ["age"] JSValue.fvDelete) ""
      ∧ extractFieldTransforms [(dotJoined "user" ["age"], JSValue.fvDelete)] ""
        = extractFieldTransforms (nestedChain "user" ["age"] JSValue.fvDelete) ""
      ∧ (getFieldPathsEntries JSValue.fvDelete = none →
          getFieldPaths [(dotJoined "user" ["age"], JSValue.fvDelete)] ""
            = getFieldPaths (nestedChain "user" ["age"] JSValue.fvDelete) "")) :=
  ⟨by decide, by decide,
   claim5_flat_vs_nested "user" ["age"] JSValue.fvDelete "" (by decide) (by decide)⟩

/-- Counterexample to C5 as stated: for the plain (non-sentinel) nested map
value `{x: 1}` under the logical path `user.age`, the flat dotted key yields
the plain-field path `user.age` while the nested form descends into the
value and yields `user.age.x`, so the plain-field-path artifacts differ. -/
theorem claim5_counterexample :
    (('.' : Char) ∉ "user".toList)
    ∧ (∀ s ∈ (["age"] : List String), ('.' : Char) ∉ s.toList)
    ∧ getFieldPaths
        [(dotJoined "user" ["age"], JSValue.map [("x", JSValue.num 1)])] ""
        ≠ getFieldPaths
            (nestedChain "user" ["age"] (JSValue.map [("x", JSValue.num 1)])) "" := by
  refine ⟨by decide, by decide, ?_⟩
  show getFieldPaths [("user.age", JSValue.map [("x", JSValue.num 1)])] ""
      ≠ getFieldPaths
          [("user", JSValue.map [("age", JSValue.map [("x", JSValue.num 1)])])] ""
  have h1 : getFieldPaths [("user.age", JSValue.map [("x", JSValue.num 1)])] ""
      = ["user.age"] := by
    rw [getFieldPaths]
    rw [getFieldPaths]
    rfl
  have h2 : getFieldPaths
      [("user", JSValue.map [("age", JSValue.map [("x", JSValue.num 1)])])] ""
      = ["user.age.x"] := by
    rw [getFieldPaths]
    rw [getFieldPaths]
    rw [List.append_nil]
    show getFieldPaths [("age", JSValue.map [("x", JSValue.num 1)])] "user" = _
    rw [getFieldPaths]
    rw [getFieldPaths]
    rw [List.append_nil]
    show getFieldPaths [("x", JSValue.num 1)] "user.age" = _
    rw [getFieldPaths]
    rw [getFieldPaths]
    rw [List.append_nil]
    rfl
  rw [h1, h2]
  decide

-- ===========================================================================
-- The update-mask claim (C4): domain predicates and single-entry forms
-- ===========================================================================

/-- A value that is not a nonempty plain map: the values the spec-side leaf
enumeration does not descend into. -/
def notNonemptyMap : JSValue → Bool
  | .map (_ :: _) => false
  | _ => true

mutual

/-- Values on which the code's field-path enumeration agrees with the
spec's plain-leaf reading: no `Timestamp` instance, no nonempty
`Uint8Array`, no nonempty map carrying both a `latitude` and a `longitude`
key, and recursively no dotted key inside nested maps. -/
def plainTreeValue : JSValue → Bool
  | .map es =>
    !((es.any fun kv => kv.1 == "latitude")
      && (es.any fun kv => kv.1 == "longitude"))
    && plainTreeEntries es
  | .tsval _ _ => false
  | .bytes bs => bs.isEmpty
  | _ => true

/-- Entry lists whose keys are dot-free with `plainTreeValue` values. -/
def plainTreeEntries : List (String × JSValue) → Bool
  | [] => true
  | (k, v) :: rest =>
    !(k.toList.contains '.') && plainTreeValue v && plainTreeEntries rest

end

/-- Top-level payloads on which the update mask matches the spec sentence:
a dotted top-level key may not carry a nonempty-map value (the code would
not traverse it, while the spec enumeration would), and a dot-free key
carries a `plainTreeValue`. -/
def maskFriendly : List (String × JSValue) → Bool
  | [] => true
  | (k, v) :: rest =>
    (if k.toList.contains '.' then notNonemptyMap v else plainTreeValue v)
    && maskFriendly rest

theorem not_mem_of_contains_false {l : List Char}
    (h : l.contains '.' = false) : ('.' : Char) ∉ l := fun hm => by
  have h2 : l.contains '.' = true := List.elem_eq_true_of_mem hm
  rw [h2] at h
  exact Bool.noConfusion h

theorem extractDeleteFields_single (k : String) (v : JSValue) (pre : String) :
    extractDeleteFields [(k, v)] pre
      = if isFieldValue v && isDeleteField v then [joinPath pre (quotedKeyOf k)]
        else extractDeleteFields (extractChildEntries v)
          (joinPath pre (quotedKeyOf k)) := by
  rw [extractDeleteFields]
  rw [extractDeleteFields]
  simp only [List.append_nil]

theorem extractTransformFields_single (k : String) (v : JSValue) (pre : String) :
    extractTransformFields [(k, v)] pre
      = if isFieldValue v && !isDeleteField v then [joinPath pre (quotedKeyOf k)]
        else extractTransformFields (extractChildEntries v)
          (joinPath pre (quotedKeyOf k)) := by
  rw [extractTransformFields]
  rw [extractTransformFields]
  simp only [List.append_nil]

theorem getFieldPaths_single_nodot_leaf (k : String) (v : JSValue)
    (pre : String) (hk : k.toList.contains '.' = false)
    (hleaf : getFieldPathsEntries v = none) :
    getFieldPaths [(k, v)] pre = [joinPath pre (quoteFieldPathSegment k)] := by
  rw [getFieldPaths]
  rw [getFieldPaths]
  simp only [List.append_nil]
  rw [if_neg (by intro hc; rw [hk] at hc; exact Bool.noConfusion hc)]
  split
  · next es heq => rw [hleaf] at heq; exact absurd heq (by simp)
  · rfl

theorem getFieldPaths_single_nodot_descend (k : String) (v : JSValue)
    (es' : List (String × JSValue)) (pre : String)
    (hk : k.toList.contains '.' = false)
    (hrec : getFieldPathsEntries v = some es') :
    getFieldPaths [(k, v)] pre
      = getFieldPaths es' (joinPath pre (quoteFieldPathSegment k)) := by
  rw [getFieldPaths]
  rw [getFieldPaths]
  simp only [List.append_nil]
  rw [if_neg (by intro hc; rw [hk] at hc; exact Bool.noConfusion hc)]
  split
  · next es2 heq =>
    rw [hrec] at heq
    have h2 : es2 = es' := by simpa using heq.symm
    rw [h2]
  · next heq => rw [hrec] at heq; exact absurd heq (by simp)

theorem getFieldPaths_single_dotted (k : String) (v : JSValue) (pre : String)
    (hdot : k.toList.contains '.' = true) :
    getFieldPaths [(k, v)] pre = [quoteFieldPath k] := by
  rw [getFieldPaths]
  rw [getFieldPaths]
  simp only [List.append_nil]
  rw [if_pos hdot]

theorem specChildEntries_none (v : JSValue) (hnm : notNonemptyMap v = true) :
    specChildEntries v = none := by
  cases v
  case map es =>
    cases es with
    | nil => rfl
    | cons e t => exact absurd hnm (by simp [notNonemptyMap])
  all_goals rfl

theorem specPlainLeafPaths_single_sentinel (k : String) (v : JSValue)
    (pre : String) (hfv : isFieldValue v = true) :
    specPlainLeafPaths [(k, v)] pre = [] := by
  rw [specPlainLeafPaths]
  rw [specPlainLeafPaths]
  simp only [List.append_nil]
  rw [if_pos hfv]

theorem specPlainLeafPaths_single_leaf (k : String) (v : JSValue)
    (pre : String) (hnfv : isFieldValue v = false)
    (hnm : notNonemptyMap v = true) :
    specPlainLeafPaths [(k, v)] pre = [joinPath pre (quotedKeyOf k)] := by
  rw [specPlainLeafPaths]
  rw [specPlainLeafPaths]
  simp only [List.append_nil]
  rw [if_neg (by simp [hnfv])]
  split
  · next es heq =>
    rw [specChildEntries_none v hnm] at heq
    exact absurd heq (by simp)
  · rfl

theorem specPlainLeafPaths_single_descend (k : String) (e : String × JSValue)
    (t : List (String × JSValue)) (pre : String) :
    specPlainLeafPaths [(k, JSValue.map (e :: t))] pre
      = specPlainLeafPaths (e :: t) (joinPath pre (quotedKeyOf k)) := by
  rw [specPlainLeafPaths]
  rw [specPlainLeafPaths]
  simp only [List.append_nil]
  rw [if_neg (by simp [isFieldValue])]
  split
  · next es2 heq =>
    have h2 : es2 = e :: t := by simpa [specChildEntries] using heq.symm
    rw [h2]
  · next heq => simp [specChildEntries] at heq

theorem sentinel_leaf (v : JSValue) (hfv : isFieldValue v = true) :
    getFieldPathsEntries v = none := by
  cases v <;> first
    | rfl
    | exact absurd hfv (by simp [isFieldValue])

theorem filter_kill_single (D T : List String) (fp : String)
    (h : fp ∈ D ∨ fp ∈ T) :
    List.filter (fun p => !(D.contains p) && !(T.contains p)) [fp] = [] := by
  have hP : (!(D.contains fp) && !(T.contains fp)) = false := by
    cases h with
    | inl hD => rw [show D.contains fp = true from List.elem_eq_true_of_mem hD]; rfl
    | inr hT => rw [show T.contains fp = true from List.elem_eq_true_of_mem hT]; simp
  rw [List.filter, hP]
  rfl

theorem getFieldPaths_cons_decomp (k : String) (v : JSValue)
    (rest : List (String × JSValue)) (pre : String) :
    getFieldPaths ((k, v) :: rest) pre
      = getFieldPaths [(k, v)] pre ++ getFieldPaths rest pre := by
  simp only [getFieldPaths, List.append_nil]

theorem extractDeleteFields_cons_decomp (k : String) (v : JSValue)
    (rest : List (String × JSValue)) (pre : String) :
    extractDeleteFields ((k, v) :: rest) pre
      = extractDeleteFields [(k, v)] pre ++ extractDeleteFields rest pre := by
  simp only [extractDeleteFields, List.append_nil]

theorem extractTransformFields_cons_decomp (k : String) (v : JSValue)
    (rest : List (String × JSValue)) (pre : String) :
    extractTransformFields ((k, v) :: rest) pre
      = extractTransformFields [(k, v)] pre
        ++ extractTransformFields rest pre := by
  simp only [extractTransformFields, List.append_nil]

theorem specPlainLeafPaths_cons_decomp (k : String) (v : JSValue)
    (rest : List (String × JSValue)) (pre : String) :
    specPlainLeafPaths ((k, v) :: rest) pre
      = specPlainLeafPaths [(k, v)] pre ++ specPlainLeafPaths rest pre := by
  simp only [specPlainLeafPaths, List.append_nil]

theorem maskHeadSentinel (k : String) (v : JSValue) (pre : String)
    (D T : List String) (hk : k.toList.contains '.' = false)
    (hfv : isFieldValue v = true)
    (hkill : joinPath pre (quoteFieldPathSegment k) ∈ D
      ∨ joinPath pre (quoteFieldPathSegment k) ∈ T) :
    (getFieldPaths [(k, v)] pre).filter
        (fun p => !(D.contains p) && !(T.contains p))
      = (specPlainLeafPaths [(k, v)] pre).filter
          (fun p => !(D.contains p) && !(T.contains p)) := by
  rw [getFieldPaths_single_nodot_leaf k v pre hk (sentinel_leaf v hfv),
    specPlainLeafPaths_single_sentinel k v pre hfv,
    filter_kill_single D T _ hkill]
  rfl

theorem maskHeadLeaf (k : String) (v : JSValue) (pre : String)
    (D T : List String) (hk : k.toList.contains '.' = false)
    (hnfv : isFieldValue v = false)
    (hleaf : getFieldPathsEntries v = none)
    (hnm : notNonemptyMap v = true) :
    (getFieldPaths [(k, v)] pre).filter
        (fun p => !(D.contains p) && !(T.contains p))
      = (specPlainLeafPaths [(k, v)] pre).filter
          (fun p => !(D.contains p) && !(T.contains p)) := by
  rw [getFieldPaths_single_nodot_leaf k v pre hk hleaf,
    specPlainLeafPaths_single_leaf k v pre hnfv hnm,
    quotedKeyOf_no_dot k (not_mem_of_contains_false hk)]

theorem maskCoreNested (data : List (String × JSValue)) (pre : String)
    (D T : List String) (hp : plainTreeEntries data = true)
    (hd : ∀ p ∈ extractDeleteFields data pre, p ∈ D)
    (ht : ∀ p ∈ extractTransformFields data pre, p ∈ T) :
    (getFieldPaths data pre).filter
        (fun p => !(D.contains p) && !(T.contains p))
      = (specPlainLeafPaths data pre).filter
          (fun p => !(D.contains p) && !(T.contains p)) := by
  match data with
  | [] =>
    rw [getFieldPaths, specPlainLeafPaths]
  | (k, v) :: rest =>
    rw [plainTreeEntries] at hp
    simp only [Bool.and_eq_true, Bool.not_eq_true'] at hp
    obtain ⟨⟨hk, hpv⟩, hprest⟩ := hp
    rw [getFieldPaths_cons_decomp, specPlainLeafPaths_cons_decomp,
      List.filter_append, List.filter_append]
    have hdS : ∀ p ∈ extractDeleteFields [(k, v)] pre, p ∈ D := fun p hm =>
      hd p (by
        rw [extractDeleteFields_cons_decomp]
        exact List.mem_append_left _ hm)
    have htS : ∀ p ∈ extractTransformFields [(k, v)] pre, p ∈ T := fun p hm =>
      ht p (by
        rw [extractTransformFields_cons_decomp]
        exact List.mem_append_left _ hm)
    have hdR : ∀ p ∈ extractDeleteFields rest pre, p ∈ D := fun p hm =>
      hd p (by
        rw [extractDeleteFields_cons_decomp]
        exact List.mem_append_right _ hm)
    have htR : ∀ p ∈ extractTransformFields rest pre, p ∈ T := fun p hm =>
      ht p (by
        rw [extractTransformFields_cons_decomp]
        exact List.mem_append_right _ hm)
    rw [maskCoreNested rest pre D T hprest hdR htR]
    congr 1
    cases v
    case fvServerTimestamp =>
      apply maskHeadSentinel k JSValue.fvServerTimestamp pre D T hk rfl
      right
      apply htS
      rw [extractTransformFields_single, if_pos (by rfl),
        quotedKeyOf_no_dot k (not_mem_of_contains_false hk)]
      exact List.mem_singleton.mpr rfl
    case fvDelete =>
      apply maskHeadSentinel k JSValue.fvDelete pre D T hk rfl
      left
      apply hdS
      rw [extractDeleteFields_single, if_pos (by rfl),
        quotedKeyOf_no_dot k (not_mem_of_contains_false hk)]
      exact List.mem_singleton.mpr rfl
    case fvIncrement q =>
      apply maskHeadSentinel k (JSValue.fvIncrement q) pre D T hk rfl
      right
      apply htS
      rw [extractTransformFields_single, if_pos (by rfl),
        quotedKeyOf_no_dot k (not_mem_of_contains_false hk)]
      exact List.mem_singleton.mpr rfl
    case fvArrayUnion xs =>
      apply maskHeadSentinel k (JSValue.fvArrayUnion xs) pre D T hk rfl
      right
      apply htS
      rw [extractTransformFields_single, if_pos (by rfl),
        quotedKeyOf_no_dot k (not_mem_of_contains_false hk)]
      exact List.mem_singleton.mpr rfl
    case fvArrayRemove xs =>
      apply maskHeadSentinel k (JSValue.fvArrayRemove xs) pre D T hk rfl
      right
      apply htS
      rw [extractTransformFields_single, if_pos (by rfl),
        quotedKeyOf_no_dot k (not_mem_of_contains_false hk)]
      exact List.mem_singleton.mpr rfl
    case tsval sx nx =>
      rw [plainTreeValue] at hpv
      exact absurd hpv (by simp)
    case bytes bs =>
      rw [plainTreeValue] at hpv
      have hbs : bs = [] := by
        cases bs with
        | nil => rfl
        | cons b t => exact absurd hpv (by simp)
      subst hbs
      exact maskHeadLeaf k _ pre D T hk rfl rfl rfl
    case map es =>
      rw [plainTreeValue] at hpv
      simp only [Bool.and_eq_true, Bool.not_eq_true'] at hpv
      obtain ⟨hgeo, hpes⟩ := hpv
      cases es with
      | nil => exact maskHeadLeaf k _ pre D T hk rfl rfl rfl
      | cons e t =>
        have hentries : getFieldPathsEntries (JSValue.map (e :: t))
            = some (e :: t) := by
          rw [getFieldPathsEntries]
          rw [if_neg (by simp)]
          rw [if_neg (by rw [hgeo]; simp)]
        rw [getFieldPaths_single_nodot_descend k _ (e :: t) pre hk hentries,
          specPlainLeafPaths_single_descend k e t pre,
          quotedKeyOf_no_dot k (not_mem_of_contains_false hk)]
        apply maskCoreNested (e :: t)
          (joinPath pre (quoteFieldPathSegment k)) D T hpes
        · intro p hm
          apply hdS
          rw [extractDeleteFields_single, if_neg (by simp [isFieldValue]),
            quotedKeyOf_no_dot k (not_mem_of_contains_false hk)]
          exact hm
        · intro p hm
          apply htS
          rw [extractTransformFields_single, if_neg (by simp [isFieldValue]),
            quotedKeyOf_no_dot k (not_mem_of_contains_false hk)]
          exact hm
    all_goals exact maskHeadLeaf k _ pre D T hk rfl rfl rfl
termination_by eWeight data
decreasing_by
  · simp only [eWeight]
    omega
  · subst_vars
    simp only [eWeight, vWeight]
    omega

theorem maskCoreTop (data : List (String × JSValue)) (D T : List String) :
    maskFriendly data = true →
    (∀ p ∈ extractDeleteFields data "", p ∈ D) →
    (∀ p ∈ extractTransformFields data "", p ∈ T) →
    (getFieldPaths data "").filter
        (fun p => !(D.contains p) && !(T.contains p))
      = (specPlainLeafPaths data "").filter
          (fun p => !(D.contains p) && !(T.contains p)) := by
  induction data with
  | nil =>
    intro _ _ _
    rw [getFieldPaths, specPlainLeafPaths]
  | cons kv rest ih =>
    obtain ⟨k, v⟩ := kv
    intro hf hd ht
    rw [maskFriendly] at hf
    simp only [Bool.and_eq_true] at hf
    obtain ⟨hcond, hfrest⟩ := hf
    rw [getFieldPaths_cons_decomp, specPlainLeafPaths_cons_decomp,
      List.filter_append, List.filter_append]
    have hdS : ∀ p ∈ extractDeleteFields [(k, v)] "", p ∈ D := fun p hm =>
      hd p (by
        rw [extractDeleteFields_cons_decomp]
        exact List.mem_append_left _ hm)
    have htS : ∀ p ∈ extractTransformFields [(k, v)] "", p ∈ T := fun p hm =>
      ht p (by
        rw [extractTransformFields_cons_decomp]
        exact List.mem_append_left _ hm)
    have hdR : ∀ p ∈ extractDeleteFields rest "", p ∈ D := fun p hm =>
      hd p (by
        rw [extractDeleteFields_cons_decomp]
        exact List.mem_append_right _ hm)
    have htR : ∀ p ∈ extractTransformFields rest "", p ∈ T := fun p hm =>
      ht p (by
        rw [extractTransformFields_cons_decomp]
        exact List.mem_append_right _ hm)
    rw [ih hfrest hdR htR]
    congr 1
    by_cases hdot : k.toList.contains '.' = true
    · rw [if_pos hdot] at hcond
      have hquoted : quotedKeyOf k = quoteFieldPath k := by
        rw [quotedKeyOf, if_pos hdot]
      by_cases hfv : isFieldValue v = true
      · rw [getFieldPaths_single_dotted k v "" hdot,
          specPlainLeafPaths_single_sentinel k v "" hfv]
        have hkill : quoteFieldPath k ∈ D ∨ quoteFieldPath k ∈ T := by
          by_cases hdel : isDeleteField v = true
          · left
            apply hdS
            rw [extractDeleteFields_single, if_pos (by simp [hfv, hdel]),
              joinPath_empty, hquoted]
            exact List.mem_singleton.mpr rfl
          · have hdelF : isDeleteField v = false := by
              revert hdel
              cases isDeleteField v <;> simp
            right
            apply htS
            rw [extractTransformFields_single, if_pos (by simp [hfv, hdelF]),
              joinPath_empty, hquoted]
            exact List.mem_singleton.mpr rfl
        rw [filter_kill_single D T _ hkill]
        rfl
      · have hnfv : isFieldValue v = false := by
          revert hfv
          cases isFieldValue v <;> simp
        rw [getFieldPaths_single_dotted k v "" hdot,
          specPlainLeafPaths_single_leaf k v "" hnfv hcond,
          joinPath_empty, hquoted]
    · have hkF : k.toList.contains '.' = false := by
        revert hdot
        cases k.toList.contains '.' <;> simp
      rw [if_neg hdot] at hcond
      apply maskCoreNested [(k, v)] "" D T ?_ hdS htS
      rw [plainTreeEntries, hkF, hcond, plainTreeEntries]
      rfl

/-- C4 (amended): for every mask-friendly partial-write payload — no
`Timestamp` instance, no nonempty `Uint8Array`, no nonempty map carrying
both a `latitude` and a `longitude` key, no dotted key below the top level,
and no dotted top-level key carrying a nonempty-map value — the update mask
is exactly the union of (a) the quoted paths of every plain leaf field not
covered by a transform or a delete sentinel and (b) every delete path, with
transformed paths excluded.  (Outside this domain the code's path
enumeration departs from the spec sentence, as the counterexample shows.) -/
theorem claim4_update_mask (data : List (String × JSValue))
    (hf : maskFriendly data = true) :
    updateMaskFieldPaths data = specUpdateMask data := by
  simp only [updateMaskFieldPaths, specUpdateMask]
  congr 1
  exact maskCoreTop data (extractDeleteFields data "")
    (extractTransformFields data "") hf (fun _ h => h) (fun _ h => h)

/-- Witness for C4 at the payload
`{a: {b: 1, del: FieldValue.delete()}, "c.d": "x"}`. -/
theorem claim4_update_mask_witness :
    maskFriendly [("a", JSValue.map [("b", JSValue.num 1),
        ("del", JSValue.fvDelete)]), ("c.d", JSValue.str "x")] = true
    ∧ updateMaskFieldPaths [("a", JSValue.map [("b", JSValue.num 1),
        ("del", JSValue.fvDelete)]), ("c.d", JSValue.str "x")]
      = specUpdateMask [("a", JSValue.map [("b", JSValue.num 1),
        ("del", JSValue.fvDelete)]), ("c.d", JSValue.str "x")] :=
  ⟨by decide, claim4_update_mask _ (by decide)⟩

/-- Counterexample to C4 as stated: for the payload
`{a: {"b.c": FieldValue.delete()}}` the code's update mask is
`["b.c", "a.b.c"]` — `getFieldPaths` pushes the nested dotted key without
its prefix, so the bogus path `b.c` survives the delete/transform filter —
while the spec sentence prescribes `["a.b.c"]` (no plain leaves, one delete
path). -/
theorem claim4_counterexample :
    updateMaskFieldPaths [("a", JSValue.map [("b.c", JSValue.fvDelete)])]
      ≠ specUpdateMask [("a", JSValue.map [("b.c", JSValue.fvDelete)])] := by
  have hD : extractDeleteFields
      [("a", JSValue.map [("b.c", JSValue.fvDelete)])] "" = ["a.b.c"] := by
    rw [extractDeleteFields_single, if_neg (by simp [isFieldValue]),
      show extractChildEntries (JSValue.map [("b.c", JSValue.fvDelete)])
        = [("b.c", JSValue.fvDelete)] from rfl,
      extractDeleteFields_single, if_pos (by simp [isFieldValue, isDeleteField])]
    rfl
  have hT : extractTransformFields
      [("a", JSValue.map [("b.c", JSValue.fvDelete)])] "" = [] := by
    rw [extractTransformFields_single, if_neg (by simp [isFieldValue]),
      show extractChildEntries (JSValue.map [("b.c", JSValue.fvDelete)])
        = [("b.c", JSValue.fvDelete)] from rfl,
      extractTransformFields_single,
      if_neg (by simp [isFieldValue, isDeleteField]),
      show extractChildEntries JSValue.fvDelete
        = ([] : List (String × JSValue)) from rfl,
      extractTransformFields]
  have hG : getFieldPaths
      [("a", JSValue.map [("b.c", JSValue.fvDelete)])] "" = ["b.c"] := by
    rw [getFieldPaths_single_nodot_descend "a" _ [("b.c", JSValue.fvDelete)]
        "" rfl (getFieldPathsEntries_singleton_map "b.c" JSValue.fvDelete),
      getFieldPaths_single_dotted "b.c" JSValue.fvDelete _ rfl]
    rfl
  have hS : specPlainLeafPaths
      [("a", JSValue.map [("b.c", JSValue.fvDelete)])] "" = [] := by
    rw [specPlainLeafPaths_single_descend "a" ("b.c", JSValue.fvDelete) [] "",
      specPlainLeafPaths_single_sentinel "b.c" JSValue.fvDelete
        (joinPath "" (quotedKeyOf "a")) rfl]
  have hL : updateMaskFieldPaths
      [("a", JSValue.map [("b.c", JSValue.fvDelete)])] = ["b.c", "a.b.c"] := by
    simp only [updateMaskFieldPaths]
    rw [hD, hT, hG]
    rfl
  have hR : specUpdateMask
      [("a", JSValue.map [("b.c", JSValue.fvDelete)])] = ["a.b.c"] := by
    simp only [specUpdateMask]
    rw [hD, hT, hS]
    rfl
  rw [hL, hR]
  decide
